import Mathlib

/-!
# Verification of the ExpenseTracker core (`src/expense_tracker.cpp`)

A shallow embedding of the data-management engine of the expense tracker:
the `Date` value type, the case-folding text utilities, the CSV codec
(`csv_escape` / `csv_unescape` / `csv_split_line`), the record store
operations (`add`, `filter_by_date_range`, `totals_by_category`) and the
persistence gateway (`save_csv` / `load_csv`).

Modelling conventions:
* C++ `std::string` is embedded as `List Char` (one `Char` per byte; the
  source only treats ASCII specially, and UTF-8 byte order agrees with
  codepoint order for the lexicographic comparisons of `std::map`).
* C++ `int` is embedded as `Int` (no overflow occurs in the ranges the
  program exercises: date components come from at most 4 decimal digits).
* C++ `double` is embedded as `ℚ` (exact arithmetic; the spec makes no
  numeric-precision guarantees, and every claim about amounts is either
  sign/aggregation-level or explicitly "modulo floating-point formatting").
* File I/O is embedded by passing the file's character content explicitly;
  a file that cannot be opened is `Option.none`.
* `std::getline` is embedded by `linesOf`, splitting the content at `'\n'`.
-/

namespace ExpenseTracker

/-- `struct Date { int y, m, d; }` from the source. -/
structure Date where
  y : Int
  m : Int
  d : Int
deriving DecidableEq, Repr

/-- `is_leap` from the source: `(y % 4 == 0 && y % 100 != 0) || (y % 400 == 0)`.
(Only ever evaluated at `y ≥ 1900`, where C++ `%` agrees with `Int.emod`.) -/
def is_leap (y : Int) : Bool :=
  (y % 4 == 0 && y % 100 != 0) || (y % 400 == 0)

/-- The month-length table `md` from `valid_date`. -/
def monthDays : List Int := [31, 28, 31, 30, 31, 30, 31, 31, 30, 31, 30, 31]

/-- `valid_date` from the source: bounds checks, then day against the month
length with the February leap adjustment. -/
def valid_date (dt : Date) : Bool :=
  if dt.y < 1900 || dt.m < 1 || dt.m > 12 || dt.d < 1 then false
  else
    let days := monthDays.getD (dt.m - 1).toNat 0 +
      (if dt.m == 2 && is_leap dt.y then 1 else 0)
    dt.d ≤ days

/-- C-locale `isspace`, as consulted by `std::stoi`/`std::stod` while
skipping leading whitespace. -/
def isSpaceC (c : Char) : Bool :=
  c == ' ' || c == '\t' || c == '\n' || c == '\x0b' || c == '\x0c' || c == '\r'

/-- Numeric value of a list of decimal digit characters (most significant
first), as accumulated by `std::stoi` / the integer part of `std::stod`. -/
def digitsToNat (ds : List Char) : Nat :=
  ds.foldl (fun acc c => acc * 10 + (c.toNat - 48)) 0

/-- `std::stoi`, restricted to the inputs the source feeds it (substrings of
length ≤ 4, so no overflow): skip leading whitespace, an optional sign, then
the maximal run of decimal digits; fails (throws, here `none`) only when that
run is empty. Trailing non-digit characters are ignored. -/
def stoiOpt (s : List Char) : Option Int :=
  let s1 := s.dropWhile isSpaceC
  let neg := s1.head? = some '-'
  let s2 := if s1.head? = some '-' ∨ s1.head? = some '+' then s1.tail else s1
  let ds := s2.takeWhile Char.isDigit
  if ds.isEmpty then none
  else if neg then some (-(digitsToNat ds : Int)) else some (digitsToNat ds : Int)

/-- `s.substr(pos, len)` for our `List Char` strings. -/
def substr (s : List Char) (pos len : Nat) : List Char :=
  (s.drop pos).take len

/-- `parse_date` from the source: length must be 10 with `'-'` at positions
4 and 7; the three components go through `std::stoi`; the result must pass
`valid_date`. -/
def parse_date (s : List Char) : Option Date :=
  if s.length = 10 ∧ s.getD 4 ' ' = '-' ∧ s.getD 7 ' ' = '-' then
    match stoiOpt (substr s 0 4), stoiOpt (substr s 5 2), stoiOpt (substr s 8 2) with
    | some y, some m, some d =>
        let dt : Date := ⟨y, m, d⟩
        if valid_date dt then some dt else none
    | _, _, _ => none
  else none

/-- Fuel-driven worker for `natDigits` (structural recursion so that the
kernel can evaluate it on concrete inputs). -/
def natDigitsGo : Nat → Nat → List Char
  | 0, _ => []
  | fuel + 1, n =>
      if n < 10 then [Nat.digitChar n]
      else natDigitsGo fuel (n / 10) ++ [Nat.digitChar (n % 10)]

/-- Decimal digit characters of `n`, most significant first (the rendering
used by `operator<<` on integers). -/
def natDigits (n : Nat) : List Char :=
  natDigitsGo (n + 1) n

/-- Rendering of a C++ `int` by `operator<<`. -/
def intChars (i : Int) : List Char :=
  if i < 0 then '-' :: natDigits i.natAbs else natDigits i.natAbs

/-- `std::setw w` with `std::setfill('0')`: pad on the left with `'0'` up to
width `w` (wider renderings are not truncated). -/
def padZero (w : Nat) (s : List Char) : List Char :=
  List.replicate (w - s.length) '0' ++ s

/-- `to_string(Date)` from the source: zero-padded `YYYY-MM-DD`
(`setw(4)`/`setw(2)` with fill `'0'`). -/
def dateToString (dt : Date) : List Char :=
  padZero 4 (intChars dt.y) ++ '-' :: (padZero 2 (intChars dt.m) ++ '-' :: padZero 2 (intChars dt.d))

/-- `date_le` from the source: lexicographic year, then month, then day. -/
def date_le (a b : Date) : Bool :=
  (a.y < b.y) || (a.y == b.y && (a.m < b.m || (a.m == b.m && a.d ≤ b.d)))

/-- `to_lower` from the source: C-locale `std::tolower` byte-wise, which
lowercases exactly the ASCII letters `'A'..'Z'`. -/
def to_lower (s : List Char) : List Char :=
  s.map fun c => if 'A' ≤ c ∧ c ≤ 'Z' then Char.ofNat (c.toNat + 32) else c

/-- `std::string` `operator<` (as used by the `std::map` of
`totals_by_category`): lexicographic byte comparison, a strict prefix being
smaller. -/
def strLt : List Char → List Char → Bool
  | _, [] => false
  | [], _ :: _ => true
  | a :: as, b :: bs =>
      if a.toNat < b.toNat then true
      else if b.toNat < a.toNat then false
      else strLt as bs

/-- The quote-doubling loop inside `csv_escape`:
`for (char c : s) { if (c=='"') out.push_back('"'); out.push_back(c); }`. -/
def dupQuotes : List Char → List Char
  | [] => []
  | c :: cs => if c = '"' then '"' :: '"' :: dupQuotes cs else c :: dupQuotes cs

/-- `csv_escape` from the source: return unchanged unless the field contains
a comma, quote or newline, in which case wrap it in quotes doubling every
embedded quote. -/
def csv_escape (s : List Char) : List Char :=
  if s.any (fun c => c = ',' ∨ c = '"' ∨ c = '\n') then '"' :: (dupQuotes s ++ ['"'])
  else s

/-- The quote-undoubling scan inside `csv_unescape`: a doubled quote becomes
one quote (consuming both characters), anything else is copied. -/
def undupQuotes : List Char → List Char
  | [] => []
  | c :: cs =>
      match cs with
      | [] => [c]
      | c2 :: cs2 =>
          if c = '"' ∧ c2 = '"' then '"' :: undupQuotes cs2
          else c :: undupQuotes (c2 :: cs2)

/-- `csv_unescape` from the source: if the field has length ≥ 2 and both its
first and last characters are quotes, strip that outer pair
(`substr(1, size-2)`) and undouble embedded quotes; otherwise return
unchanged. -/
def csv_unescape (s : List Char) : List Char :=
  if s.length ≥ 2 ∧ s.head? = some '"' ∧ s.getLast? = some '"' then
    undupQuotes (s.drop 1).dropLast
  else s

/-- Prepend a character to the first column of a column list (the running
`cur` of the imperative split loop, recast functionally). -/
def consCol (c : Char) : List (List Char) → List (List Char)
  | [] => [[c]]
  | h :: t => (c :: h) :: t

/-- The character loop of `csv_split_line`: a quote toggles the
inside-quotes flag and is kept; a comma outside quotes starts a new column;
everything else is appended to the current column. The final `cur` is always
emitted, so the result is never empty. -/
def splitRaw (inq : Bool) : List Char → List (List Char)
  | [] => [[]]
  | c :: cs =>
      if c = '"' then consCol '"' (splitRaw (!inq) cs)
      else if c = ',' ∧ inq = false then [] :: splitRaw inq cs
      else consCol c (splitRaw inq cs)

/-- The trailing-CR/LF strip applied to every column by `csv_split_line`:
`while (!s.empty() && (s.back()=='\r'||s.back()=='\n')) s.pop_back()`. -/
def stripTrailCRLF (s : List Char) : List Char :=
  (s.reverse.dropWhile (fun c => c = '\r' ∨ c = '\n')).reverse

/-- `csv_split_line` from the source. -/
def csv_split_line (line : List Char) : List (List Char) :=
  (splitRaw false line).map stripTrailCRLF

/-- `struct Expense` from the source; the `double` amount is embedded as an
exact rational. -/
structure Expense where
  date : Date
  amount : ℚ
  category : List Char
  description : List Char
deriving DecidableEq, Repr

/-- `ExpenseManager::add`: append at the end of the store. -/
def add (store : List Expense) (e : Expense) : List Expense :=
  store ++ [e]

/-- `ExpenseManager::filter_by_date_range`: keep, in order, the records with
`date_le from e.date && date_le e.date to`. -/
def filter_by_date_range (dfrom dto : Date) : List Expense → List Expense
  | [] => []
  | e :: r =>
      if date_le dfrom e.date && date_le e.date dto then
        e :: filter_by_date_range dfrom dto r
      else filter_by_date_range dfrom dto r

/-- `ExpenseManager::total`: sum of the amounts of an arbitrary record list. -/
def total (l : List Expense) : ℚ :=
  l.foldl (fun s e => s + e.amount) 0

/-- `m[k] += v` on the `std::map<std::string,double>` of
`totals_by_category`, embedded as insertion into a key-sorted association
list: `operator[]` value-initialises an absent entry to `0.0` before `+=`. -/
def mapAdd : List (List Char × ℚ) → List Char → ℚ → List (List Char × ℚ)
  | [], k, v => [(k, v)]
  | (k0, v0) :: rest, k, v =>
      if strLt k k0 then (k, v) :: (k0, v0) :: rest
      else if strLt k0 k then (k0, v0) :: mapAdd rest k v
      else (k0, v0 + v) :: rest

/-- `ExpenseManager::totals_by_category`: fold the records into the map,
keyed by the lowercased category. -/
def totals_by_category (l : List Expense) : List (List Char × ℚ) :=
  l.foldl (fun m e => mapAdd m (to_lower e.category) e.amount) []

/-- `std::stod` on a record's amount field, for the decimal forms
`[ws][±]digits[.digits][(e|E)[±]digits]` of `strtod` (the hexadecimal,
infinity and NaN forms have no counterpart in the exact-rational embedding
of `double`): fails exactly when the mantissa contains no digit; a
malformed exponent suffix is ignored, as is any other trailing text. -/
def stod (s : List Char) : Option ℚ :=
  let s1 := s.dropWhile isSpaceC
  let neg := s1.head? = some '-'
  let s2 := if s1.head? = some '-' ∨ s1.head? = some '+' then s1.tail else s1
  let intDs := s2.takeWhile Char.isDigit
  let s3 := s2.drop intDs.length
  let fracDs := if s3.head? = some '.' then s3.tail.takeWhile Char.isDigit else []
  let s4 := if s3.head? = some '.' then s3.tail.drop fracDs.length else s3
  if intDs.isEmpty ∧ fracDs.isEmpty then none
  else
    let mant : ℚ := (digitsToNat intDs : ℚ) + (digitsToNat fracDs : ℚ) / (10 : ℚ) ^ fracDs.length
    let expo : Int :=
      match s4 with
      | 'e' :: r | 'E' :: r =>
          match r with
          | '-' :: r2 =>
              let ds := r2.takeWhile Char.isDigit
              if ds.isEmpty then 0 else -(digitsToNat ds : Int)
          | '+' :: r2 =>
              let ds := r2.takeWhile Char.isDigit
              if ds.isEmpty then 0 else (digitsToNat ds : Int)
          | r2 =>
              let ds := r2.takeWhile Char.isDigit
              if ds.isEmpty then 0 else (digitsToNat ds : Int)
      | _ => 0
    some ((if neg then -mant else mant) * (10 : ℚ) ^ expo)

/-- Zero-pad a digit list on the left to six places. -/
def pad6 (ds : List Char) : List Char :=
  List.replicate (6 - ds.length) '0' ++ ds

/-- `f << e.amount`, the default `ostream` rendering of a `double`, embedded
over the exact-rational amount as a sign + integer part + six fractional
digits decimal rendering. The claims compare amounts only "modulo
floating-point formatting", so nothing below depends on the rendered value —
only on its character set (sign, digits, point: never a comma, quote, CR or
LF) and on `stod` accepting it, both of which the true `%g` output shares. -/
def ostreamDouble (q : ℚ) : List Char :=
  let t : Nat := q.num.natAbs * 1000000 / q.den
  (if q.num < 0 then ['-'] else []) ++
    (natDigits (t / 1000000) ++ '.' :: pad6 (natDigits (t % 1000000)))

/-- The header line written by `save_csv` and recognised by `load_csv`. -/
def headerChars : List Char := "date,amount,category,description".data

/-- One record line as written by `save_csv`:
`to_string(date) ',' amount ',' csv_escape(category) ',' csv_escape(description)`. -/
def encodeLine (e : Expense) : List Char :=
  dateToString e.date ++
    ',' :: (ostreamDouble e.amount ++
      ',' :: (csv_escape e.category ++ ',' :: csv_escape e.description))

/-- `ExpenseManager::save_csv`, successful-open path: the character content
written to the file — the header line then one line per record, each
terminated by `'\n'`. -/
def save_csv (store : List Expense) : List Char :=
  headerChars ++ '\n' :: store.foldr (fun e acc => encodeLine e ++ '\n' :: acc) []

/-- `ExpenseManager::parse_csv_line`: split the line; require at least 4
columns, a parsable date in column 0 and a `stod`-parsable amount in column
1; unescape columns 2 and 3; extra columns are ignored. Returns the record
appended to the store (`none` models the early `return`s). -/
def parse_csv_line (line : List Char) : Option Expense :=
  let cols := csv_split_line line
  if cols.length < 4 then none
  else
    match parse_date (cols.getD 0 []) with
    | none => none
    | some d =>
        match stod (cols.getD 1 []) with
        | none => none
        | some amt => some ⟨d, amt, csv_unescape (cols.getD 2 []), csv_unescape (cols.getD 3 [])⟩

/-- Split content at every `'\n'` (keeping empty pieces); never empty. -/
def splitNl : List Char → List (List Char)
  | [] => [[]]
  | c :: cs => if c = '\n' then [] :: splitNl cs else consCol c (splitNl cs)

/-- The sequence of lines `std::getline` yields on the given file content:
empty content yields no lines; otherwise the `'\n'`-separated pieces, the
final piece being dropped when the content ends with `'\n'` (getline then
hits end-of-file with nothing read). -/
def linesOf (content : List Char) : List (List Char) :=
  if content = [] then []
  else if content.getLast? = some '\n' then (splitNl content).dropLast
  else splitNl content

/-- The `while (std::getline(f,line)) parse_csv_line(line);` loop of
`load_csv`, accumulating the store. -/
def load_loop (acc : List Expense) : List (List Char) → List Expense
  | [] => acc
  | l :: r =>
      match parse_csv_line l with
      | none => load_loop acc r
      | some e => load_loop (acc ++ [e]) r

/-- The line-level behaviour of `load_csv` after a successful open: the
store was cleared; the first line is skipped when
`line.rfind("date,amount,category,description", 0) == 0`, i.e. when the
header text is a *prefix* of it, and parsed as a record otherwise; every
further line is parsed as a record. -/
def load_lines (ls : List (List Char)) : List Expense :=
  match ls with
  | [] => []
  | first :: rest =>
      let init : List Expense :=
        if headerChars.isPrefixOf first then []
        else
          match parse_csv_line first with
          | none => []
          | some e => [e]
      load_loop init rest

/-- `ExpenseManager::load_csv`: a file that cannot be opened (`none`) fails,
leaving the store untouched; otherwise the store is replaced by the records
decoded from the content's lines and the call succeeds. -/
def load_csv (store : List Expense) (file : Option (List Char)) : Bool × List Expense :=
  match file with
  | none => (false, store)
  | some content => (true, load_lines (linesOf content))

/-! ## Specification-side definitions

The definitions below transcribe the *spec's* descriptions of behaviours,
to be compared with the code-derived definitions above in refinement
theorems. -/

/-- Prepend a string to the first column of a column list (used to state how
`splitRaw` traverses a field without splitting it). -/
def preCol (s : List Char) : List (List Char) → List (List Char)
  | [] => [s]
  | h :: t => (s ++ h) :: t

/-- The spec's strict `YYYY-MM-DD` shape: exactly ten characters, hyphens at
positions 4 and 7, every other position a decimal digit. -/
def digit_pattern (s : List Char) : Bool :=
  match s with
  | [c0, c1, c2, c3, c4, c5, c6, c7, c8, c9] =>
      c0.isDigit && c1.isDigit && c2.isDigit && c3.isDigit && c4 == '-' &&
      c5.isDigit && c6.isDigit && c7 == '-' && c8.isDigit && c9.isDigit
  | _ => false

/-- The spec's date order: "total order by year, then month, then day",
inclusive comparison. -/
def spec_date_le (a b : Date) : Prop :=
  a.y < b.y ∨ (a.y = b.y ∧ (a.m < b.m ∨ (a.m = b.m ∧ a.d ≤ b.d)))

/-- The spec's per-category aggregate: the sum of the amounts of the records
whose category lowercases to `k`. -/
def spec_category_sum (l : List Expense) (k : List Char) : ℚ :=
  ((l.filter fun e => to_lower e.category = k).map fun e => e.amount).sum

/-- Association-list lookup on the embedded `std::map` (first binding of the
key, and with sorted duplicate-free keys the only one). -/
def lookupQ (k : List Char) : List (List Char × ℚ) → Option ℚ
  | [] => none
  | (k0, v0) :: r => if k = k0 then some v0 else lookupQ k r

/-- The spec's reading of the load loop's header handling: the first line is
skipped exactly when it *equals* the literal header text, and is otherwise
parsed as a data line; every line that decodes contributes a record, in file
order. -/
def spec_load_exact (ls : List (List Char)) : List Expense :=
  match ls with
  | [] => []
  | first :: rest =>
      (if first = headerChars then [] else (parse_csv_line first).toList) ++
        rest.filterMap parse_csv_line

/-- The data lines of a loaded file (the code's header rule: the first line
is dropped when the header text is a prefix of it). -/
def spec_data_lines (ls : List (List Char)) : List (List Char) :=
  match ls with
  | [] => []
  | first :: rest => if headerChars.isPrefixOf first then rest else first :: rest

/-- The amount a record carries after its original amount was written by
`save_csv` and read back by `load_csv`: the claims' "equal modulo
floating-point formatting". -/
def loadedAmount (q : ℚ) : ℚ :=
  (stod (ostreamDouble q)).getD 0

/-- A record as reproduced by a save/load round trip: identical date,
category and description, amount modulo formatting. -/
def reloaded (e : Expense) : Expense :=
  ⟨e.date, loadedAmount e.amount, e.category, e.description⟩

end ExpenseTracker

namespace ExpenseTracker

/-! ## Concrete sanity checks of the embedding

These mirror the examples given in the spec (date rejection, quoting,
lenient load). -/

example : parse_date "2024-02-29".data = some ⟨2024, 2, 29⟩ := by decide
example : parse_date "2023-02-29".data = none := by decide
example : parse_date "2023-13-01".data = none := by decide
example : parse_date "23-01-01".data = none := by decide
example : parse_date "2023/01/01".data = none := by decide
example : parse_date "2024-01-1a".data = some ⟨2024, 1, 1⟩ := by decide
example : dateToString ⟨2024, 2, 29⟩ = "2024-02-29".data := by decide
example : dateToString ⟨10000, 1, 1⟩ = "10000-01-01".data := by decide

end ExpenseTracker

namespace ExpenseTracker

example : to_lower "FoOd".data = "food".data := by decide

example : csv_escape "a,b\"c".data = "\"a,b\"\"c\"".data := by decide
example : csv_unescape "\"a,b\"\"c\"".data = "a,b\"c".data := by decide
example : csv_split_line "2024-01-15,42.50,Food,Groceries".data =
    ["2024-01-15".data, "42.50".data, "Food".data, "Groceries".data] := by decide
example : csv_split_line "2024-02-01,\"1,200.00\",\"Rent, Utilities\",Monthly".data =
    ["2024-02-01".data, "\"1,200.00\"".data, "\"Rent, Utilities\"".data, "Monthly".data] := by decide
example : (parse_csv_line "2024-01-15,42.50,Food,Groceries".data).map (fun e => e.description) =
    some "Groceries".data := by decide
example : linesOf "a\nb\n".data = ["a".data, "b".data] := by decide
example : linesOf "a\nb".data = ["a".data, "b".data] := by decide
example : linesOf "".data = [] := by decide
example : (load_csv [] (some "2024-01-15,42.50,Food,Groceries\nbad,1,x,y\n".data)).2.map
    (fun e => e.category) = ["Food".data] := by decide

end ExpenseTracker

namespace ExpenseTracker

/-! ## Decimal-digit rendering lemmas -/

theorem natDigitsGo_congr : ∀ n f1 : Nat, n < f1 → ∀ f2 : Nat, n < f2 →
    natDigitsGo f1 n = natDigitsGo f2 n := by
  intro n
  induction n using Nat.strong_induction_on with
  | _ n ih =>
    intro f1 h1 f2 h2
    match f1, f2 with
    | g1 + 1, g2 + 1 =>
      show natDigitsGo (g1 + 1) n = natDigitsGo (g2 + 1) n
      simp only [natDigitsGo]
      by_cases hn : n < 10
      · simp [hn]
      · simp only [if_neg hn]
        have hdiv : n / 10 < n := Nat.div_lt_self (by omega) (by omega)
        rw [ih (n / 10) hdiv g1 (by omega) g2 (by omega)]

theorem natDigits_eq (n : Nat) :
    natDigits n =
      if n < 10 then [Nat.digitChar n]
      else natDigits (n / 10) ++ [Nat.digitChar (n % 10)] := by
  have h0 : natDigits n = natDigitsGo (n + 1) n := rfl
  by_cases hn : n < 10
  · rw [h0, if_pos hn]; simp [natDigitsGo, hn]
  · rw [h0, if_neg hn]
    have h1 : natDigitsGo (n + 1) n = natDigitsGo n (n / 10) ++ [Nat.digitChar (n % 10)] := by
      simp [natDigitsGo, hn]
    have hdiv : n / 10 < n := Nat.div_lt_self (by omega) (by omega)
    rw [h1, natDigitsGo_congr (n / 10) n hdiv (n / 10 + 1) (by omega)]
    rfl

theorem natDigits_ne_nil (n : Nat) : natDigits n ≠ [] := by
  rw [natDigits_eq]
  by_cases hn : n < 10 <;> simp [hn]

theorem digitChar_isDigit : ∀ d : Nat, d < 10 → (Nat.digitChar d).isDigit = true := by decide

theorem digitChar_toNat : ∀ d : Nat, d < 10 → (Nat.digitChar d).toNat - 48 = d := by decide

theorem natDigits_all_digit : ∀ n : Nat, ∀ c ∈ natDigits n, c.isDigit = true := by
  intro n
  induction n using Nat.strong_induction_on with
  | _ n ih =>
    intro c hc
    rw [natDigits_eq] at hc
    by_cases hn : n < 10
    · simp [hn] at hc
      simp [hc, digitChar_isDigit n hn]
    · simp only [if_neg hn, List.mem_append, List.mem_singleton] at hc
      rcases hc with hc | hc
      · exact ih (n / 10) (Nat.div_lt_self (by omega) (by omega)) c hc
      · simp [hc, digitChar_isDigit (n % 10) (Nat.mod_lt n (by omega))]

theorem digitsToNat_append_one (xs : List Char) (c : Char) :
    digitsToNat (xs ++ [c]) = 10 * digitsToNat xs + (c.toNat - 48) := by
  simp [digitsToNat, List.foldl_append, Nat.mul_comm]

theorem digitsToNat_natDigits : ∀ n : Nat, digitsToNat (natDigits n) = n := by
  intro n
  induction n using Nat.strong_induction_on with
  | _ n ih =>
    rw [natDigits_eq]
    by_cases hn : n < 10
    · simp [hn, digitsToNat, digitChar_toNat n hn]
    · rw [if_neg hn, digitsToNat_append_one,
        ih (n / 10) (Nat.div_lt_self (by omega) (by omega)),
        digitChar_toNat (n % 10) (Nat.mod_lt n (by omega))]
      omega

theorem natDigits_length_le : ∀ k n : Nat, n < 10 ^ (k + 1) → (natDigits n).length ≤ k + 1 := by
  intro k
  induction k with
  | zero =>
    intro n hn
    rw [natDigits_eq, if_pos (by simpa using hn)]
    simp
  | succ k ihk =>
    intro n hn
    rw [natDigits_eq]
    by_cases h10 : n < 10
    · simp [h10]
    · rw [if_neg h10]
      have : n / 10 < 10 ^ (k + 1) := by
        rw [Nat.div_lt_iff_lt_mul (by omega)]
        calc n < 10 ^ (k + 2) := hn
        _ = 10 ^ (k + 1) * 10 := by ring
      have := ihk (n / 10) this
      simp [List.length_append]
      omega

theorem natDigits_length_ge : ∀ k n : Nat, 10 ^ k ≤ n → k + 1 ≤ (natDigits n).length := by
  intro k
  induction k with
  | zero =>
    intro n _
    have := natDigits_ne_nil n
    cases h : natDigits n with
    | nil => exact absurd h this
    | cons a l => simp
  | succ k ihk =>
    intro n hn
    have h10 : ¬ n < 10 := by
      intro hlt
      have : 10 ^ (k + 1) ≥ 10 ^ 1 := Nat.pow_le_pow_right (by omega) (by omega)
      simp at this
      omega
    rw [natDigits_eq, if_neg h10]
    have hdivge : 10 ^ k ≤ n / 10 := by
      rw [Nat.le_div_iff_mul_le (by omega)]
      calc 10 ^ k * 10 = 10 ^ (k + 1) := by ring
      _ ≤ n := hn
    have := ihk (n / 10) hdivge
    simp [List.length_append]
    omega

theorem digitsToNat_replicate_zero (k : Nat) (ds : List Char) :
    digitsToNat (List.replicate k '0' ++ ds) = digitsToNat ds := by
  have hz : ∀ j : Nat, List.foldl (fun acc c => acc * 10 + (c.toNat - 48)) 0 (List.replicate j '0') = 0 := by
    intro j
    induction j with
    | zero => rfl
    | succ j ihj => simpa [List.replicate_succ] using ihj
  simp [digitsToNat, List.foldl_append, hz k]

end ExpenseTracker

namespace ExpenseTracker

/-! ## Character-class and `stoi` lemmas -/

theorem isDigit_isSpaceC (c : Char) (h : c.isDigit = true) : isSpaceC c = false := by
  by_contra hne
  have hs : isSpaceC c = true := by
    cases hh : isSpaceC c
    · exact absurd hh hne
    · rfl
  simp only [isSpaceC, Bool.or_eq_true, beq_iff_eq] at hs
  rcases hs with ((((h1 | h1) | h1) | h1) | h1) | h1 <;> subst h1 <;> simp [Char.isDigit] at h

theorem isDigit_ne (c x : Char) (h : c.isDigit = true) (hx : x.isDigit = false) : c ≠ x := by
  rintro rfl
  rw [h] at hx
  cases hx

theorem takeWhile_digits {ds : List Char} (hd : ∀ c ∈ ds, c.isDigit = true) :
    ds.takeWhile Char.isDigit = ds :=
  List.takeWhile_eq_self_iff.mpr hd

theorem stoiOpt_all_digits : ∀ ds : List Char, ds ≠ [] → (∀ c ∈ ds, c.isDigit = true) →
    stoiOpt ds = some (digitsToNat ds : Int) := by
  intro ds hne hd
  match ds with
  | a :: l =>
    have ha : a.isDigit = true := hd a (List.mem_cons_self a l)
    have hsp : isSpaceC a = false := isDigit_isSpaceC a ha
    have hdash : a ≠ '-' := isDigit_ne a '-' ha (by decide)
    have hplus : a ≠ '+' := isDigit_ne a '+' ha (by decide)
    have h1 : (a :: l).dropWhile isSpaceC = a :: l := by
      rw [List.dropWhile_cons, if_neg (by simp [hsp])]
    have hcond : (a = '-' ∨ a = '+') = False := by simp [hdash, hplus]
    simp only [stoiOpt, h1, List.head?_cons, Option.some.injEq, hcond, if_false]
    rw [takeWhile_digits hd]
    simp [hdash]

end ExpenseTracker

namespace ExpenseTracker

/-! ## Date formatting/parsing round trip -/

theorem monthDays_getD_le (i : Nat) : monthDays.getD i 0 ≤ 31 := by
  by_cases h : i < 12
  · have hball : ∀ j : Nat, j < 12 → monthDays.getD j 0 ≤ 31 := by decide
    exact hball i h
  · rw [List.getD_eq_default]
    · omega
    · simp [monthDays]; omega

theorem valid_date_bounds (dt : Date) (hv : valid_date dt = true) :
    1900 ≤ dt.y ∧ 1 ≤ dt.m ∧ dt.m ≤ 12 ∧ 1 ≤ dt.d ∧ dt.d ≤ 31 := by
  unfold valid_date at hv
  by_cases hc : (dt.y < 1900 || dt.m < 1 || dt.m > 12 || dt.d < 1 : Bool) = true
  · rw [if_pos hc] at hv; cases hv
  · rw [if_neg hc] at hv
    simp only [Bool.or_eq_true, decide_eq_true_eq, not_or] at hc
    obtain ⟨⟨⟨h1, h2⟩, h3⟩, h4⟩ := hc
    have hd : dt.d ≤ monthDays.getD (dt.m - 1).toNat 0 +
        (if dt.m == 2 && is_leap dt.y then 1 else 0) := of_decide_eq_true hv
    refine ⟨by omega, by omega, by omega, by omega, ?_⟩
    by_cases hm2 : (dt.m == 2 && is_leap dt.y : Bool) = true
    · have hm : dt.m = 2 := beq_iff_eq.mp ((Bool.and_eq_true _ _).mp hm2).1
      rw [if_pos hm2, hm] at hd
      norm_num [monthDays] at hd
      omega
    · rw [if_neg hm2] at hd
      have := monthDays_getD_le (dt.m - 1).toNat
      omega

theorem length_natDigits_four {n : Nat} (hlo : 1000 ≤ n) (hhi : n ≤ 9999) :
    (natDigits n).length = 4 := by
  have hle := natDigits_length_le 3 n (by norm_num; omega)
  have hge := natDigits_length_ge 3 n (by norm_num; omega)
  omega

theorem length_natDigits_le_two {n : Nat} (hhi : n ≤ 99) : (natDigits n).length ≤ 2 :=
  natDigits_length_le 1 n (by norm_num; omega)

theorem padZero_self {w : Nat} {s : List Char} (h : w ≤ s.length) : padZero w s = s := by
  simp [padZero, Nat.sub_eq_zero_of_le h]

theorem padZero_length (w : Nat) (s : List Char) :
    (padZero w s).length = max w s.length := by
  simp [padZero]; omega

theorem padZero_digits {w : Nat} {s : List Char} (h : ∀ c ∈ s, c.isDigit = true) :
    ∀ c ∈ padZero w s, c.isDigit = true := by
  intro c hc
  rcases List.mem_append.mp hc with h0 | h0
  · rw [List.eq_of_mem_replicate h0]; decide
  · exact h c h0

theorem padZero_ne_nil {w : Nat} {s : List Char} (h : s ≠ []) : padZero w s ≠ [] := by
  intro hcon
  rcases List.append_eq_nil.mp hcon with ⟨-, h2⟩
  exact h h2

theorem digitsToNat_padZero (w : Nat) (s : List Char) :
    digitsToNat (padZero w s) = digitsToNat s :=
  digitsToNat_replicate_zero _ _

theorem parse_dateToString (dt : Date) (hv : valid_date dt = true) (hy : dt.y ≤ 9999) :
    parse_date (dateToString dt) = some dt := by
  obtain ⟨h1, h2, h3, h4, h5⟩ := valid_date_bounds dt hv
  have hyy : (dt.y.natAbs : Int) = dt.y := Int.natAbs_of_nonneg (by omega)
  have hmm : (dt.m.natAbs : Int) = dt.m := Int.natAbs_of_nonneg (by omega)
  have hdd : (dt.d.natAbs : Int) = dt.d := Int.natAbs_of_nonneg (by omega)
  have hyc : intChars dt.y = natDigits dt.y.natAbs := by
    unfold intChars; rw [if_neg (by omega)]
  have hmc : intChars dt.m = natDigits dt.m.natAbs := by
    unfold intChars; rw [if_neg (by omega)]
  have hdc : intChars dt.d = natDigits dt.d.natAbs := by
    unfold intChars; rw [if_neg (by omega)]
  have hy4len : (natDigits dt.y.natAbs).length = 4 :=
    length_natDigits_four (by omega) (by omega)
  have hm2len : (padZero 2 (natDigits dt.m.natAbs)).length = 2 := by
    rw [padZero_length]
    have := length_natDigits_le_two (n := dt.m.natAbs) (by omega)
    omega
  have hd2len : (padZero 2 (natDigits dt.d.natAbs)).length = 2 := by
    rw [padZero_length]
    have := length_natDigits_le_two (n := dt.d.natAbs) (by omega)
    omega
  have hS : dateToString dt = natDigits dt.y.natAbs ++
      '-' :: (padZero 2 (natDigits dt.m.natAbs) ++ '-' :: padZero 2 (natDigits dt.d.natAbs)) := by
    unfold dateToString
    rw [hyc, hmc, hdc, padZero_self (by omega)]
  set y4 := natDigits dt.y.natAbs with hy4
  set m2 := padZero 2 (natDigits dt.m.natAbs) with hm2
  set d2 := padZero 2 (natDigits dt.d.natAbs) with hd2
  have hSlen : (y4 ++ '-' :: (m2 ++ '-' :: d2)).length = 10 := by
    simp [hy4len, hm2len, hd2len]
  have hg4 : (y4 ++ '-' :: (m2 ++ '-' :: d2)).getD 4 ' ' = '-' := by
    rw [List.getD_append_right _ _ _ _ (by omega), hy4len]
    rfl
  have hg7 : (y4 ++ '-' :: (m2 ++ '-' :: d2)).getD 7 ' ' = '-' := by
    rw [List.getD_append_right _ _ _ _ (by omega), hy4len]
    show ('-' :: (m2 ++ '-' :: d2)).getD 3 ' ' = '-'
    rw [List.getD_cons_succ, List.getD_append_right _ _ _ _ (by omega), hm2len]
    rfl
  have hsub0 : substr (y4 ++ '-' :: (m2 ++ '-' :: d2)) 0 4 = y4 := by
    unfold substr
    rw [List.drop_zero, ← hy4len, List.take_left]
  have hassoc : y4 ++ '-' :: (m2 ++ '-' :: d2) = (y4 ++ ['-']) ++ (m2 ++ '-' :: d2) := by
    simp
  have hsub5 : substr (y4 ++ '-' :: (m2 ++ '-' :: d2)) 5 2 = m2 := by
    unfold substr
    rw [hassoc]
    have hlen5 : (y4 ++ ['-']).length = 5 := by simp [hy4len]
    rw [← hlen5, List.drop_left, ← hm2len, List.take_left]
  have hsub8 : substr (y4 ++ '-' :: (m2 ++ '-' :: d2)) 8 2 = d2 := by
    unfold substr
    have hassoc2 : y4 ++ '-' :: (m2 ++ '-' :: d2) = ((y4 ++ ['-']) ++ (m2 ++ ['-'])) ++ d2 := by
      simp
    rw [hassoc2]
    have hlen8 : ((y4 ++ ['-']) ++ (m2 ++ ['-'])).length = 8 := by simp [hy4len, hm2len]
    rw [← hlen8, List.drop_left, ← hd2len, List.take_length]
  have hstoiY : stoiOpt y4 = some dt.y := by
    rw [stoiOpt_all_digits y4 (natDigits_ne_nil _) (natDigits_all_digit _), hy4,
      digitsToNat_natDigits, hyy]
  have hstoiM : stoiOpt m2 = some dt.m := by
    rw [stoiOpt_all_digits m2 (padZero_ne_nil (natDigits_ne_nil _))
      (padZero_digits (natDigits_all_digit _)), hm2, digitsToNat_padZero,
      digitsToNat_natDigits, hmm]
  have hstoiD : stoiOpt d2 = some dt.d := by
    rw [stoiOpt_all_digits d2 (padZero_ne_nil (natDigits_ne_nil _))
      (padZero_digits (natDigits_all_digit _)), hd2, digitsToNat_padZero,
      digitsToNat_natDigits, hdd]
  rw [hS]
  unfold parse_date
  rw [if_pos ⟨hSlen, hg4, hg7⟩, hsub0, hsub5, hsub8, hstoiY, hstoiM, hstoiD]
  show (if valid_date ⟨dt.y, dt.m, dt.d⟩ then some ⟨dt.y, dt.m, dt.d⟩ else none) = some dt
  rw [if_pos hv]

end ExpenseTracker

namespace ExpenseTracker

/-! ## Codec lemmas: quote doubling and field round trip -/

theorem dupQuotes_eq_nil_iff (s : List Char) : dupQuotes s = [] ↔ s = [] := by
  cases s with
  | nil => simp [dupQuotes]
  | cons c cs => by_cases hc : c = '"' <;> simp [dupQuotes, hc]

theorem undup_dup : ∀ s : List Char, undupQuotes (dupQuotes s) = s := by
  intro s
  induction s with
  | nil => rfl
  | cons c cs ih =>
    by_cases hc : c = '"'
    · subst hc
      show undupQuotes (dupQuotes ('"' :: cs)) = '"' :: cs
      rw [show dupQuotes ('"' :: cs) = '"' :: '"' :: dupQuotes cs from by simp [dupQuotes]]
      rw [show undupQuotes ('"' :: '"' :: dupQuotes cs) = '"' :: undupQuotes (dupQuotes cs) from by
        simp [undupQuotes]]
      rw [ih]
    · rw [show dupQuotes (c :: cs) = c :: dupQuotes cs from by simp [dupQuotes, hc]]
      cases hcs : dupQuotes cs with
      | nil =>
        rw [(dupQuotes_eq_nil_iff cs).mp hcs]
        simp [undupQuotes]
      | cons c2 cs2 =>
        rw [show undupQuotes (c :: c2 :: cs2) = c :: undupQuotes (c2 :: cs2) from by
          simp [undupQuotes, hc]]
        rw [← hcs, ih]

theorem csv_unescape_escape (s : List Char) : csv_unescape (csv_escape s) = s := by
  unfold csv_escape
  by_cases hq : (s.any fun c => decide (c = ',' ∨ c = '"' ∨ c = '\n')) = true
  · rw [if_pos hq]
    unfold csv_unescape
    rw [if_pos ?cond]
    case cond =>
      refine ⟨by simp, by simp, ?_⟩
      rw [show ('"' :: (dupQuotes s ++ ['"'])) = ('"' :: dupQuotes s) ++ ['"'] from by simp]
      rw [List.getLast?_concat]
    show undupQuotes (('"' :: (dupQuotes s ++ ['"'])).drop 1).dropLast = s
    rw [show (('"' :: (dupQuotes s ++ ['"'])).drop 1) = dupQuotes s ++ ['"'] from rfl]
    rw [List.dropLast_concat]
    exact undup_dup s
  · rw [if_neg hq]
    simp only [List.any_eq_true, decide_eq_true_eq, not_exists, not_and, not_or] at hq
    unfold csv_unescape
    rw [if_neg ?noq]
    case noq =>
      rintro ⟨hlen, hhead, -⟩
      have hmem : '"' ∈ s := List.mem_of_mem_head? (by simp [hhead])
      exact (hq '"' hmem).2.1 rfl

/-! ## Line-splitting lemmas -/

theorem splitRaw_ne_nil : ∀ (l : List Char) (q : Bool), splitRaw q l ≠ [] := by
  intro l
  induction l with
  | nil => intro q; simp [splitRaw]
  | cons c cs ih =>
    intro q
    simp only [splitRaw]
    by_cases h1 : c = '"'
    · rw [if_pos h1]
      cases h : splitRaw (!q) cs with
      | nil => exact absurd h (ih (!q))
      | cons a t => simp [consCol]
    · rw [if_neg h1]
      by_cases h2 : c = ',' ∧ q = false
      · rw [if_pos h2]; simp
      · rw [if_neg h2]
        cases h : splitRaw q cs with
        | nil => exact absurd h (ih q)
        | cons a t => simp [consCol]

theorem consCol_preCol (c : Char) (s : List Char) (X : List (List Char)) :
    consCol c (preCol s X) = preCol (c :: s) X := by
  cases X <;> simp [consCol, preCol]

theorem preCol_nil_of_ne (X : List (List Char)) (h : X ≠ []) : preCol [] X = X := by
  cases X with
  | nil => exact absurd rfl h
  | cons a t => simp [preCol]

theorem splitRaw_no_special (s : List Char) (hs : ∀ c ∈ s, c ≠ ',' ∧ c ≠ '"') (r : List Char) :
    splitRaw false (s ++ r) = preCol s (splitRaw false r) := by
  induction s with
  | nil => rw [List.nil_append, preCol_nil_of_ne _ (splitRaw_ne_nil r false)]
  | cons c cs ih =>
    have hc := hs c (List.mem_cons_self c cs)
    show splitRaw false (c :: (cs ++ r)) = _
    simp only [splitRaw]
    rw [if_neg hc.2, if_neg (by simp [hc.1])]
    rw [ih (fun x hx => hs x (List.mem_cons_of_mem c hx)), consCol_preCol]

theorem splitRaw_inq_dup (s : List Char) (r : List Char) :
    splitRaw true (dupQuotes s ++ r) = preCol (dupQuotes s) (splitRaw true r) := by
  induction s with
  | nil =>
    show splitRaw true ([] ++ r) = preCol [] (splitRaw true r)
    rw [List.nil_append, preCol_nil_of_ne _ (splitRaw_ne_nil r true)]
  | cons c cs ih =>
    by_cases hc : c = '"'
    · subst hc
      rw [show dupQuotes ('"' :: cs) = '"' :: '"' :: dupQuotes cs from by simp [dupQuotes]]
      show splitRaw true ('"' :: ('"' :: (dupQuotes cs ++ r))) = _
      rw [show splitRaw true ('"' :: ('"' :: (dupQuotes cs ++ r))) =
          consCol '"' (consCol '"' (splitRaw true (dupQuotes cs ++ r))) from by
        simp [splitRaw]]
      rw [ih, consCol_preCol, consCol_preCol]
    · rw [show dupQuotes (c :: cs) = c :: dupQuotes cs from by simp [dupQuotes, hc]]
      show splitRaw true (c :: (dupQuotes cs ++ r)) = _
      rw [show splitRaw true (c :: (dupQuotes cs ++ r)) =
          consCol c (splitRaw true (dupQuotes cs ++ r)) from by
        simp only [splitRaw]
        rw [if_neg hc, if_neg (by simp)]]
      rw [ih, consCol_preCol]

theorem preCol_assemble (a b : Char) (s : List Char) (X : List (List Char)) :
    consCol a (preCol s (consCol b X)) = preCol (a :: (s ++ [b])) X := by
  cases X <;> simp [consCol, preCol]

theorem splitRaw_csv_escape (s r : List Char) :
    splitRaw false (csv_escape s ++ r) = preCol (csv_escape s) (splitRaw false r) := by
  unfold csv_escape
  by_cases hq : (s.any fun c => decide (c = ',' ∨ c = '"' ∨ c = '\n')) = true
  · rw [if_pos hq]
    show splitRaw false ('"' :: ((dupQuotes s ++ ['"']) ++ r)) = _
    rw [show (dupQuotes s ++ ['"']) ++ r = dupQuotes s ++ ('"' :: r) from by simp]
    rw [show splitRaw false ('"' :: (dupQuotes s ++ ('"' :: r))) =
        consCol '"' (splitRaw true (dupQuotes s ++ ('"' :: r))) from by
      simp [splitRaw]]
    rw [splitRaw_inq_dup]
    rw [show splitRaw true ('"' :: r) = consCol '"' (splitRaw false r) from by simp [splitRaw]]
    exact preCol_assemble '"' '"' (dupQuotes s) (splitRaw false r)
  · rw [if_neg hq]
    simp only [List.any_eq_true, decide_eq_true_eq, not_exists, not_and, not_or] at hq
    exact splitRaw_no_special s (fun c hc => ⟨(hq c hc).1, (hq c hc).2.1⟩) r

theorem splitRaw_comma (r : List Char) :
    splitRaw false (',' :: r) = [] :: splitRaw false r := by
  simp [splitRaw]

end ExpenseTracker

namespace ExpenseTracker

/-! ## Character sets of the serialized date and amount fields -/

theorem dateToString_chars (dt : Date) :
    ∀ c ∈ dateToString dt, c.isDigit = true ∨ c = '-' := by
  intro c hc
  unfold dateToString at hc
  have hpad : ∀ (w : Nat) (i : Int), c ∈ padZero w (intChars i) → c.isDigit = true ∨ c = '-' := by
    intro w i hmem
    rcases List.mem_append.mp hmem with h0 | h0
    · left; rw [List.eq_of_mem_replicate h0]; decide
    · unfold intChars at h0
      by_cases hneg : i < 0
      · rw [if_pos hneg] at h0
        rcases List.mem_cons.mp h0 with h1 | h1
        · right; exact h1
        · left; exact natDigits_all_digit _ c h1
      · rw [if_neg hneg] at h0
        left; exact natDigits_all_digit _ c h0
  rcases List.mem_append.mp hc with h0 | h0
  · exact hpad 4 dt.y h0
  · rcases List.mem_cons.mp h0 with h1 | h1
    · right; exact h1
    · rcases List.mem_append.mp h1 with h2 | h2
      · exact hpad 2 dt.m h2
      · rcases List.mem_cons.mp h2 with h3 | h3
        · right; exact h3
        · exact hpad 2 dt.d h3

theorem pad6_digits {ds : List Char} (h : ∀ c ∈ ds, c.isDigit = true) :
    ∀ c ∈ pad6 ds, c.isDigit = true := by
  intro c hc
  rcases List.mem_append.mp hc with h0 | h0
  · rw [List.eq_of_mem_replicate h0]; decide
  · exact h c h0

theorem ostreamDouble_chars (q : ℚ) :
    ∀ c ∈ ostreamDouble q, c.isDigit = true ∨ c = '-' ∨ c = '.' := by
  intro c hc
  unfold ostreamDouble at hc
  rcases List.mem_append.mp hc with h0 | h0
  · right; left
    by_cases hneg : q.num < 0
    · rw [if_pos hneg] at h0; simpa using h0
    · rw [if_neg hneg] at h0; simp at h0
  · rcases List.mem_append.mp h0 with h1 | h1
    · left; exact natDigits_all_digit _ c h1
    · rcases List.mem_cons.mp h1 with h2 | h2
      · right; right; exact h2
      · left; exact pad6_digits (natDigits_all_digit _) c h2

theorem date_chars_not_special {c : Char} (h : c.isDigit = true ∨ c = '-') :
    c ≠ ',' ∧ c ≠ '"' ∧ c ≠ '\n' ∧ c ≠ '\r' := by
  rcases h with h | h
  · exact ⟨isDigit_ne c ',' h (by decide), isDigit_ne c '"' h (by decide),
      isDigit_ne c '\n' h (by decide), isDigit_ne c '\r' h (by decide)⟩
  · subst h; refine ⟨by decide, by decide, by decide, by decide⟩

theorem amount_chars_not_special {c : Char} (h : c.isDigit = true ∨ c = '-' ∨ c = '.') :
    c ≠ ',' ∧ c ≠ '"' ∧ c ≠ '\n' ∧ c ≠ '\r' := by
  rcases h with h | h | h
  · exact ⟨isDigit_ne c ',' h (by decide), isDigit_ne c '"' h (by decide),
      isDigit_ne c '\n' h (by decide), isDigit_ne c '\r' h (by decide)⟩
  · subst h; refine ⟨by decide, by decide, by decide, by decide⟩
  · subst h; refine ⟨by decide, by decide, by decide, by decide⟩

/-! ## Trailing-CR/LF stripping -/

theorem stripTrail_eq_rdropWhile (s : List Char) :
    stripTrailCRLF s = List.rdropWhile (fun c => decide (c = '\r' ∨ c = '\n')) s := rfl

theorem stripTrail_of_no_crlf {s : List Char} (h : ∀ c ∈ s, c ≠ '\r' ∧ c ≠ '\n') :
    stripTrailCRLF s = s := by
  rw [stripTrail_eq_rdropWhile]
  rw [List.rdropWhile_eq_self_iff]
  intro hne
  have hmem := List.getLast_mem hne
  simp [((h _ hmem).1), ((h _ hmem).2)]

theorem stripTrail_of_last {s : List Char} (h : ∀ hne : s ≠ [],
    s.getLast hne ≠ '\r' ∧ s.getLast hne ≠ '\n') :
    stripTrailCRLF s = s := by
  rw [stripTrail_eq_rdropWhile]
  rw [List.rdropWhile_eq_self_iff]
  intro hne
  simp [(h hne).1, (h hne).2]

theorem stripTrail_of_getLast? {s : List Char} (c : Char) (h : s.getLast? = some c)
    (hc1 : c ≠ '\r') (hc2 : c ≠ '\n') : stripTrailCRLF s = s := by
  rw [stripTrail_eq_rdropWhile, List.rdropWhile_eq_self_iff]
  intro hne
  have hgl := List.getLast?_eq_getLast s hne
  rw [h] at hgl
  have hcc : s.getLast hne = c := (Option.some.injEq _ _).mp hgl.symm
  simp [hcc, hc1, hc2]

theorem stripTrail_csv_escape {s : List Char} (hr : '\r' ∉ s) (hn : '\n' ∉ s) :
    stripTrailCRLF (csv_escape s) = csv_escape s := by
  unfold csv_escape
  by_cases hq : (s.any fun c => decide (c = ',' ∨ c = '"' ∨ c = '\n')) = true
  · rw [if_pos hq]
    refine stripTrail_of_getLast? '"' ?_ (by decide) (by decide)
    rw [show ('"' :: (dupQuotes s ++ ['"'])) = ('"' :: dupQuotes s) ++ ['"'] from by simp,
      List.getLast?_concat]
  · rw [if_neg hq]
    apply stripTrail_of_no_crlf
    intro c hc
    exact ⟨fun h => hr (h ▸ hc), fun h => hn (h ▸ hc)⟩

/-! ## `stod` succeeds on serialized amounts -/

theorem stod_head_digit (a : Char) (l : List Char) (ha : a.isDigit = true) :
    (stod (a :: l)).isSome = true := by
  have hsp := isDigit_isSpaceC a ha
  have hdash := isDigit_ne a '-' ha (by decide)
  have hplus := isDigit_ne a '+' ha (by decide)
  have h1 : (a :: l).dropWhile isSpaceC = a :: l := by
    rw [List.dropWhile_cons, if_neg (by simp [hsp])]
  have hcond : (a = '-' ∨ a = '+') = False := by simp [hdash, hplus]
  simp only [stod, h1, List.head?_cons, Option.some.injEq, hcond, if_false]
  rw [List.takeWhile_cons, if_pos ha]
  simp

theorem stod_dash_digit (a : Char) (l : List Char) (ha : a.isDigit = true) :
    (stod ('-' :: a :: l)).isSome = true := by
  have h1 : ('-' :: a :: l).dropWhile isSpaceC = '-' :: a :: l := by
    rw [List.dropWhile_cons, if_neg (by simp [isSpaceC])]
  simp only [stod, h1, List.head?_cons, Option.some.injEq, true_or, if_true, List.tail_cons]
  rw [List.takeWhile_cons, if_pos ha]
  simp

theorem stod_ostream_some (q : ℚ) : (stod (ostreamDouble q)).isSome = true := by
  have hzeta : ostreamDouble q = (if q.num < 0 then ['-'] else []) ++
      (natDigits (q.num.natAbs * 1000000 / q.den / 1000000) ++
        '.' :: pad6 (natDigits (q.num.natAbs * 1000000 / q.den % 1000000))) := rfl
  rw [hzeta]
  by_cases hneg : q.num < 0
  · rw [if_pos hneg]
    cases hA : natDigits (q.num.natAbs * 1000000 / q.den / 1000000) with
    | nil => exact absurd hA (natDigits_ne_nil _)
    | cons a l =>
      have ha : a.isDigit = true := natDigits_all_digit _ a (by rw [hA]; exact List.mem_cons_self a l)
      rw [show ['-'] ++ ((a :: l) ++ '.' :: pad6 (natDigits (q.num.natAbs * 1000000 / q.den % 1000000))) =
        '-' :: a :: (l ++ '.' :: pad6 (natDigits (q.num.natAbs * 1000000 / q.den % 1000000))) from by simp]
      exact stod_dash_digit a _ ha
  · rw [if_neg hneg]
    cases hA : natDigits (q.num.natAbs * 1000000 / q.den / 1000000) with
    | nil => exact absurd hA (natDigits_ne_nil _)
    | cons a l =>
      have ha : a.isDigit = true := natDigits_all_digit _ a (by rw [hA]; exact List.mem_cons_self a l)
      rw [show ([] : List Char) ++ ((a :: l) ++ '.' :: pad6 (natDigits (q.num.natAbs * 1000000 / q.den % 1000000))) =
        a :: (l ++ '.' :: pad6 (natDigits (q.num.natAbs * 1000000 / q.den % 1000000))) from by simp]
      exact stod_head_digit a _ ha

end ExpenseTracker

namespace ExpenseTracker

/-! ## Splitting a record line into its four fields -/

theorem mem_dupQuotes {c : Char} : ∀ {s : List Char}, c ∈ dupQuotes s → c ∈ s ∨ c = '"' := by
  intro s
  induction s with
  | nil => intro h; simp [dupQuotes] at h
  | cons a l ih =>
    intro h
    by_cases ha : a = '"'
    · rw [show dupQuotes (a :: l) = '"' :: '"' :: dupQuotes l from by simp [dupQuotes, ha]] at h
      rcases List.mem_cons.mp h with h1 | h1
      · right; exact h1
      · rcases List.mem_cons.mp h1 with h2 | h2
        · right; exact h2
        · rcases ih h2 with h3 | h3
          · left; exact List.mem_cons_of_mem a h3
          · right; exact h3
    · rw [show dupQuotes (a :: l) = a :: dupQuotes l from by simp [dupQuotes, ha]] at h
      rcases List.mem_cons.mp h with h1 | h1
      · left; exact h1 ▸ List.mem_cons_self a l
      · rcases ih h1 with h3 | h3
        · left; exact List.mem_cons_of_mem a h3
        · right; exact h3

theorem mem_csv_escape {c : Char} {s : List Char} (h : c ∈ csv_escape s) : c ∈ s ∨ c = '"' := by
  unfold csv_escape at h
  by_cases hq : (s.any fun x => decide (x = ',' ∨ x = '"' ∨ x = '\n')) = true
  · rw [if_pos hq] at h
    rcases List.mem_cons.mp h with h1 | h1
    · right; exact h1
    · rcases List.mem_append.mp h1 with h2 | h2
      · exact mem_dupQuotes h2
      · right; simpa using h2
  · rw [if_neg hq] at h; left; exact h

theorem csv_escape_no_newline {s : List Char} (hn : '\n' ∉ s) : '\n' ∉ csv_escape s := by
  intro h
  rcases mem_csv_escape h with h1 | h1
  · exact hn h1
  · cases h1

theorem encodeLine_no_newline (e : Expense) (hc1 : '\n' ∉ e.category)
    (hd1 : '\n' ∉ e.description) : '\n' ∉ encodeLine e := by
  intro h
  unfold encodeLine at h
  rcases List.mem_append.mp h with h0 | h0
  · exact (date_chars_not_special (dateToString_chars e.date _ h0)).2.2.1 rfl
  · rcases List.mem_cons.mp h0 with h1 | h1
    · cases h1
    · rcases List.mem_append.mp h1 with h2 | h2
      · exact (amount_chars_not_special (ostreamDouble_chars e.amount _ h2)).2.2.1 rfl
      · rcases List.mem_cons.mp h2 with h3 | h3
        · cases h3
        · rcases List.mem_append.mp h3 with h4 | h4
          · exact csv_escape_no_newline hc1 h4
          · rcases List.mem_cons.mp h4 with h5 | h5
            · cases h5
            · exact csv_escape_no_newline hd1 h5

theorem splitRaw_escape_alone (s : List Char) :
    splitRaw false (csv_escape s) = [csv_escape s] := by
  have h := splitRaw_csv_escape s []
  rw [List.append_nil] at h
  rw [h]
  show preCol (csv_escape s) [[]] = _
  simp [preCol]

theorem csv_split_encodeLine (e : Expense)
    (hc1 : '\n' ∉ e.category) (hc2 : '\r' ∉ e.category)
    (hd1 : '\n' ∉ e.description) (hd2 : '\r' ∉ e.description) :
    csv_split_line (encodeLine e) =
      [dateToString e.date, ostreamDouble e.amount, csv_escape e.category,
        csv_escape e.description] := by
  have hdsp : ∀ c ∈ dateToString e.date, c ≠ ',' ∧ c ≠ '"' := fun c hc =>
    ⟨(date_chars_not_special (dateToString_chars e.date c hc)).1,
     (date_chars_not_special (dateToString_chars e.date c hc)).2.1⟩
  have hasp : ∀ c ∈ ostreamDouble e.amount, c ≠ ',' ∧ c ≠ '"' := fun c hc =>
    ⟨(amount_chars_not_special (ostreamDouble_chars e.amount c hc)).1,
     (amount_chars_not_special (ostreamDouble_chars e.amount c hc)).2.1⟩
  unfold csv_split_line encodeLine
  rw [splitRaw_no_special _ hdsp, splitRaw_comma, splitRaw_no_special _ hasp, splitRaw_comma,
    splitRaw_csv_escape, splitRaw_comma, splitRaw_escape_alone]
  simp only [preCol, List.map]
  rw [List.append_nil, List.append_nil, List.append_nil]
  rw [stripTrail_of_no_crlf (fun c hc => ⟨(date_chars_not_special (dateToString_chars e.date c hc)).2.2.2,
        (date_chars_not_special (dateToString_chars e.date c hc)).2.2.1⟩),
      stripTrail_of_no_crlf (fun c hc => ⟨(amount_chars_not_special (ostreamDouble_chars e.amount c hc)).2.2.2,
        (amount_chars_not_special (ostreamDouble_chars e.amount c hc)).2.2.1⟩),
      stripTrail_csv_escape hc2 hc1, stripTrail_csv_escape hd2 hd1]

theorem parse_encodeLine (e : Expense) (hv : valid_date e.date = true) (hy : e.date.y ≤ 9999)
    (hc1 : '\n' ∉ e.category) (hc2 : '\r' ∉ e.category)
    (hd1 : '\n' ∉ e.description) (hd2 : '\r' ∉ e.description) :
    parse_csv_line (encodeLine e) = some (reloaded e) := by
  simp only [parse_csv_line]
  rw [csv_split_encodeLine e hc1 hc2 hd1 hd2]
  rw [if_neg (by simp)]
  simp only [List.getD_cons_zero, List.getD_cons_succ]
  rw [parse_dateToString e.date hv hy]
  obtain ⟨v, hvv⟩ := Option.isSome_iff_exists.mp (stod_ostream_some e.amount)
  rw [hvv, csv_unescape_escape, csv_unescape_escape]
  unfold reloaded loadedAmount
  rw [hvv]
  rfl

end ExpenseTracker

namespace ExpenseTracker

/-! ## `getline` line decomposition of saved content -/

theorem splitNl_ne_nil : ∀ r : List Char, splitNl r ≠ [] := by
  intro r
  induction r with
  | nil => simp [splitNl]
  | cons c cs ih =>
    simp only [splitNl]
    by_cases hc : c = '\n'
    · rw [if_pos hc]; simp
    · rw [if_neg hc]
      cases h : splitNl cs with
      | nil => exact absurd h ih
      | cons a t => simp [consCol]

theorem splitNl_no_newline (A : List Char) (hA : '\n' ∉ A) (r : List Char) :
    splitNl (A ++ r) = preCol A (splitNl r) := by
  induction A with
  | nil => rw [List.nil_append, preCol_nil_of_ne _ (splitNl_ne_nil r)]
  | cons c cs ih =>
    have hc : c ≠ '\n' := fun h => hA (h ▸ List.mem_cons_self c cs)
    show splitNl (c :: (cs ++ r)) = _
    rw [show splitNl (c :: (cs ++ r)) = consCol c (splitNl (cs ++ r)) from by
      simp [splitNl, hc]]
    rw [ih (fun h => hA (List.mem_cons_of_mem c h)), consCol_preCol]

theorem linesOf_append_line (A B : List Char) (hA : '\n' ∉ A) :
    linesOf (A ++ '\n' :: B) = A :: linesOf B := by
  have hsplit : splitNl (A ++ '\n' :: B) = A :: splitNl B := by
    rw [splitNl_no_newline A hA, show splitNl ('\n' :: B) = [] :: splitNl B from by simp [splitNl]]
    cases h : splitNl B with
    | nil => exact absurd h (splitNl_ne_nil B)
    | cons a t => simp [preCol]
  have hne : A ++ '\n' :: B ≠ [] := by simp
  unfold linesOf
  rw [if_neg hne, List.getLast?_append_cons]
  by_cases hB : B = []
  · subst hB
    rw [show (['\n'] : List Char).getLast? = some '\n' from rfl, if_pos rfl, hsplit]
    simp [splitNl]
  · have hBlast : ('\n' :: B).getLast? = B.getLast? := by
      cases B with
      | nil => exact absurd rfl hB
      | cons b bs => exact List.getLast?_cons_cons
    rw [hBlast]
    by_cases hln : B.getLast? = some '\n'
    · rw [if_pos hln, hsplit, List.dropLast_cons_of_ne_nil (splitNl_ne_nil B),
        if_neg hB, if_pos hln]
    · rw [if_neg hln, hsplit, if_neg hB, if_neg hln]

/-! ## The load loop -/

theorem load_loop_eq (acc : List Expense) (ls : List (List Char)) :
    load_loop acc ls = acc ++ ls.filterMap parse_csv_line := by
  induction ls generalizing acc with
  | nil => simp [load_loop]
  | cons l r ih =>
    simp only [load_loop]
    cases h : parse_csv_line l with
    | none =>
      show load_loop acc r = acc ++ List.filterMap parse_csv_line (l :: r)
      rw [ih, List.filterMap_cons, h]
    | some e =>
      show load_loop (acc ++ [e]) r = acc ++ List.filterMap parse_csv_line (l :: r)
      rw [ih, List.filterMap_cons, h, List.append_assoc]
      rfl

theorem load_lines_eq (ls : List (List Char)) :
    load_lines ls = (spec_data_lines ls).filterMap parse_csv_line := by
  cases ls with
  | nil => rfl
  | cons first rest =>
    simp only [load_lines, spec_data_lines]
    by_cases hp : headerChars.isPrefixOf first = true
    · rw [if_pos hp, if_pos hp, load_loop_eq, List.nil_append]
    · rw [if_neg hp, if_neg hp, load_loop_eq, List.filterMap_cons]
      cases h : parse_csv_line first with
      | none => rw [List.nil_append]
      | some e => rw [List.singleton_append]

end ExpenseTracker

namespace ExpenseTracker

/-! ## Save/load round trip -/

theorem linesOf_saveBody : ∀ store : List Expense,
    (∀ e ∈ store, '\n' ∉ e.category ∧ '\n' ∉ e.description) →
    linesOf (store.foldr (fun e acc => encodeLine e ++ '\n' :: acc) []) =
      store.map encodeLine := by
  intro store
  induction store with
  | nil => intro _; rfl
  | cons e r ih =>
    intro h
    show linesOf (encodeLine e ++ '\n' :: r.foldr (fun e acc => encodeLine e ++ '\n' :: acc) []) = _
    rw [linesOf_append_line _ _ (encodeLine_no_newline e (h e (List.mem_cons_self e r)).1
        (h e (List.mem_cons_self e r)).2)]
    rw [ih (fun x hx => h x (List.mem_cons_of_mem e hx))]
    rfl

theorem filterMap_parse_encode : ∀ l : List Expense,
    (∀ e ∈ l, valid_date e.date = true ∧ e.date.y ≤ 9999 ∧
      '\n' ∉ e.category ∧ '\r' ∉ e.category ∧ '\n' ∉ e.description ∧ '\r' ∉ e.description) →
    (l.map encodeLine).filterMap parse_csv_line = l.map reloaded := by
  intro l
  induction l with
  | nil => intro _; rfl
  | cons e r ih =>
    intro hl
    obtain ⟨he1, he2, he3, he4, he5, he6⟩ := hl e (List.mem_cons_self e r)
    simp only [List.map_cons, List.filterMap_cons]
    rw [parse_encodeLine e he1 he2 he3 he4 he5 he6,
      ih (fun x hx => hl x (List.mem_cons_of_mem e hx))]

theorem save_load_roundtrip (store prev : List Expense)
    (h : ∀ e ∈ store, valid_date e.date = true ∧ e.date.y ≤ 9999 ∧
      '\n' ∉ e.category ∧ '\r' ∉ e.category ∧ '\n' ∉ e.description ∧ '\r' ∉ e.description) :
    load_csv prev (some (save_csv store)) = (true, store.map reloaded) := by
  show (true, load_lines (linesOf (save_csv store))) = _
  have h1 : linesOf (save_csv store) = headerChars :: store.map encodeLine := by
    unfold save_csv
    rw [linesOf_append_line _ _ (by decide),
      linesOf_saveBody store (fun e he => ⟨(h e he).2.2.1, (h e he).2.2.2.2.1⟩)]
  rw [h1, load_lines_eq]
  simp only [spec_data_lines]
  rw [if_pos (by decide : headerChars.isPrefixOf headerChars = true)]
  rw [filterMap_parse_encode store h]

/-! ## Header-prefixed lines never decode -/

theorem parse_header_prefix (t : List Char) (hp : headerChars.isPrefixOf t = true) :
    parse_csv_line t = none := by
  obtain ⟨u2, hu⟩ := List.isPrefixOf_iff_prefix.mp hp
  subst hu
  have heq : headerChars ++ u2 =
      "date".data ++ (',' :: ("amount,category,description".data ++ u2)) := rfl
  have hsplit : splitRaw false (headerChars ++ u2) =
      preCol "date".data ([] :: splitRaw false ("amount,category,description".data ++ u2)) := by
    rw [heq, splitRaw_no_special _ (by decide), splitRaw_comma]
  have hcols : csv_split_line (headerChars ++ u2) =
      "date".data :: (splitRaw false ("amount,category,description".data ++ u2)).map stripTrailCRLF := by
    unfold csv_split_line
    rw [hsplit]
    cases hS : splitRaw false ("amount,category,description".data ++ u2) with
    | nil => exact absurd hS (splitRaw_ne_nil _ false)
    | cons a t2 =>
      simp only [preCol, List.map_cons]
      rw [show stripTrailCRLF ("date".data ++ []) = "date".data from by decide]
  simp only [parse_csv_line]
  rw [hcols]
  by_cases hlen : ("date".data ::
      (splitRaw false ("amount,category,description".data ++ u2)).map stripTrailCRLF).length < 4
  · rw [if_pos hlen]
  · rw [if_neg hlen, List.getD_cons_zero,
      show parse_date "date".data = none from by decide]

end ExpenseTracker

namespace ExpenseTracker

/-! ## Header handling: prefix test vs exact match -/

theorem load_lines_exact (ls : List (List Char)) : load_lines ls = spec_load_exact ls := by
  cases ls with
  | nil => rfl
  | cons first rest =>
    simp only [load_lines, spec_load_exact]
    by_cases hp : headerChars.isPrefixOf first = true
    · rw [if_pos hp]
      by_cases he : first = headerChars
      · rw [if_pos he, load_loop_eq, List.nil_append]
      · rw [if_neg he, parse_header_prefix first hp, load_loop_eq, List.nil_append]
        rfl
    · rw [if_neg hp]
      have he : first ≠ headerChars := fun h =>
        hp (h ▸ (by decide : headerChars.isPrefixOf headerChars = true))
      rw [if_neg he]
      cases hpp : parse_csv_line first with
      | none => rw [load_loop_eq, List.nil_append]; rfl
      | some e => rw [load_loop_eq]; rfl

/-! ## Date-range filtering -/

theorem date_le_iff (a b : Date) : date_le a b = true ↔ spec_date_le a b := by
  unfold date_le spec_date_le
  simp only [Bool.or_eq_true, Bool.and_eq_true, decide_eq_true_eq, beq_iff_eq]

theorem filter_by_date_range_eq (f t : Date) (l : List Expense) :
    filter_by_date_range f t l =
      l.filter (fun e => date_le f e.date && date_le e.date t) := by
  induction l with
  | nil => rfl
  | cons e r ih =>
    simp only [filter_by_date_range, List.filter_cons]
    by_cases hc : (date_le f e.date && date_le e.date t) = true
    · rw [if_pos hc, if_pos hc, ih]
    · rw [if_neg hc, if_neg hc, ih]

/-! ## Byte-lexicographic string order -/

theorem strLt_irrefl : ∀ k : List Char, strLt k k = false := by
  intro k
  induction k with
  | nil => rfl
  | cons c cs ih => simp [strLt, ih]

theorem char_eq_of_toNat {c x : Char} (h : c.toNat = x.toNat) : c = x :=
  Char.ext (UInt32.toNat.inj h)

theorem strLt_asymm : ∀ a b : List Char, strLt a b = true → strLt b a = false := by
  intro a
  induction a with
  | nil =>
    intro b h
    cases b with
    | nil => cases h
    | cons x xs => rfl
  | cons c cs ih =>
    intro b h
    cases b with
    | nil => cases h
    | cons x xs =>
      simp only [strLt] at h ⊢
      by_cases h1 : c.toNat < x.toNat
      · rw [if_neg (by omega : ¬ x.toNat < c.toNat), if_pos h1]
      · rw [if_neg h1] at h
        by_cases h2 : x.toNat < c.toNat
        · rw [if_pos h2] at h; cases h
        · rw [if_neg h2] at h
          rw [if_neg h2, if_neg h1]
          exact ih xs h

theorem strLt_trans : ∀ a b c : List Char, strLt a b = true → strLt b c = true →
    strLt a c = true := by
  intro a
  induction a with
  | nil =>
    intro b c h1 h2
    cases b with
    | nil => cases h1
    | cons y ys =>
      cases c with
      | nil => cases h2
      | cons z zs => rfl
  | cons x xs ih =>
    intro b c h1 h2
    cases b with
    | nil => cases h1
    | cons y ys =>
      cases c with
      | nil => cases h2
      | cons z zs =>
        simp only [strLt] at h1 h2 ⊢
        by_cases hxy : x.toNat < y.toNat
        · by_cases hyz : y.toNat < z.toNat
          · rw [if_pos (by omega : x.toNat < z.toNat)]
          · rw [if_neg hyz] at h2
            by_cases hzy : z.toNat < y.toNat
            · rw [if_pos hzy] at h2; cases h2
            · rw [if_pos (by omega : x.toNat < z.toNat)]
        · rw [if_neg hxy] at h1
          by_cases hyx : y.toNat < x.toNat
          · rw [if_pos hyx] at h1; cases h1
          · rw [if_neg hyx] at h1
            by_cases hyz : y.toNat < z.toNat
            · rw [if_pos (by omega : x.toNat < z.toNat)]
            · rw [if_neg hyz] at h2
              by_cases hzy : z.toNat < y.toNat
              · rw [if_pos hzy] at h2; cases h2
              · rw [if_neg hzy] at h2
                rw [if_neg (by omega : ¬ x.toNat < z.toNat),
                  if_neg (by omega : ¬ z.toNat < x.toNat)]
                exact ih ys zs h1 h2

theorem strLt_eq_of_not_lt : ∀ a b : List Char, strLt a b = false → strLt b a = false →
    a = b := by
  intro a
  induction a with
  | nil =>
    intro b h1 _
    cases b with
    | nil => rfl
    | cons x xs => cases h1
  | cons c cs ih =>
    intro b h1 h2
    cases b with
    | nil => cases h2
    | cons x xs =>
      simp only [strLt] at h1 h2
      by_cases hcx : c.toNat < x.toNat
      · rw [if_pos hcx] at h1; cases h1
      · by_cases hxc : x.toNat < c.toNat
        · rw [if_pos hxc] at h2; cases h2
        · rw [if_neg hcx, if_neg hxc] at h1
          rw [if_neg hxc, if_neg hcx] at h2
          rw [char_eq_of_toNat (by omega : c.toNat = x.toNat), ih xs h1 h2]

end ExpenseTracker

namespace ExpenseTracker

/-! ## The per-category totals map -/

theorem mem_mapAdd : ∀ (m : List (List Char × ℚ)) (k : List Char) (v : ℚ) (p),
    p ∈ mapAdd m k v → p ∈ m ∨ p.1 = k := by
  intro m
  induction m with
  | nil =>
    intro k v p hp
    right
    rw [List.mem_singleton.mp hp]
  | cons kv rest ih =>
    intro k v p hp
    obtain ⟨k0, v0⟩ := kv
    simp only [mapAdd] at hp
    by_cases h1 : strLt k k0 = true
    · rw [if_pos h1] at hp
      rcases List.mem_cons.mp hp with rfl | hp2
      · right; rfl
      · left; exact hp2
    · rw [if_neg h1] at hp
      by_cases h2 : strLt k0 k = true
      · rw [if_pos h2] at hp
        rcases List.mem_cons.mp hp with rfl | hp2
        · left; exact List.mem_cons_self _ _
        · rcases ih k v p hp2 with h | h
          · left; exact List.mem_cons_of_mem _ h
          · right; exact h
      · rw [if_neg h2] at hp
        rcases List.mem_cons.mp hp with rfl | hp2
        · right
          exact (strLt_eq_of_not_lt k k0 (by simpa using h1) (by simpa using h2)).symm
        · left; exact List.mem_cons_of_mem _ hp2

theorem mapAdd_pairwise : ∀ (m : List (List Char × ℚ)) (k : List Char) (v : ℚ),
    m.Pairwise (fun p q => strLt p.1 q.1 = true) →
    (mapAdd m k v).Pairwise (fun p q => strLt p.1 q.1 = true) := by
  intro m
  induction m with
  | nil => intro k v _; simp [mapAdd]
  | cons kv rest ih =>
    intro k v hm
    obtain ⟨k0, v0⟩ := kv
    rw [List.pairwise_cons] at hm
    obtain ⟨h0, hrest⟩ := hm
    simp only [mapAdd]
    by_cases h1 : strLt k k0 = true
    · rw [if_pos h1, List.pairwise_cons]
      constructor
      · intro p hp
        rcases List.mem_cons.mp hp with rfl | hp2
        · exact h1
        · exact strLt_trans _ _ _ h1 (h0 p hp2)
      · exact List.pairwise_cons.mpr ⟨h0, hrest⟩
    · rw [if_neg h1]
      by_cases h2 : strLt k0 k = true
      · rw [if_pos h2, List.pairwise_cons]
        constructor
        · intro p hp
          rcases mem_mapAdd rest k v p hp with h | h
          · exact h0 p h
          · rw [h]; exact h2
        · exact ih k v hrest
      · rw [if_neg h2, List.pairwise_cons]
        exact ⟨fun p hp => h0 p hp, hrest⟩

theorem lookupQ_none_of_all_lt (k : List Char) :
    ∀ m : List (List Char × ℚ), (∀ p ∈ m, strLt k p.1 = true) → lookupQ k m = none := by
  intro m
  induction m with
  | nil => intro _; rfl
  | cons kv rest ih =>
    intro h
    obtain ⟨k0, v0⟩ := kv
    have hk : strLt k k0 = true := h (k0, v0) (List.mem_cons_self _ _)
    have hne : k ≠ k0 := fun he => by rw [he, strLt_irrefl] at hk; cases hk
    simp only [lookupQ]
    rw [if_neg hne]
    exact ih (fun p hp => h p (List.mem_cons_of_mem _ hp))

theorem lookupQ_mapAdd_self : ∀ (m : List (List Char × ℚ)) (k : List Char) (v : ℚ),
    m.Pairwise (fun p q => strLt p.1 q.1 = true) →
    lookupQ k (mapAdd m k v) = some ((lookupQ k m).getD 0 + v) := by
  intro m
  induction m with
  | nil => intro k v _; simp [mapAdd, lookupQ]
  | cons kv rest ih =>
    intro k v hm
    obtain ⟨k0, v0⟩ := kv
    rw [List.pairwise_cons] at hm
    obtain ⟨h0, hrest⟩ := hm
    simp only [mapAdd]
    by_cases h1 : strLt k k0 = true
    · rw [if_pos h1]
      have hlk : lookupQ k ((k0, v0) :: rest) = none := by
        apply lookupQ_none_of_all_lt
        intro p hp
        rcases List.mem_cons.mp hp with rfl | hp2
        · exact h1
        · exact strLt_trans _ _ _ h1 (h0 p hp2)
      rw [hlk]
      simp [lookupQ]
    · rw [if_neg h1]
      by_cases h2 : strLt k0 k = true
      · rw [if_pos h2]
        have hne : k ≠ k0 := fun he => by rw [he, strLt_irrefl] at h2; cases h2
        simp only [lookupQ]
        rw [if_neg hne, if_neg hne]
        exact ih k v hrest
      · rw [if_neg h2]
        have heq : k = k0 := strLt_eq_of_not_lt k k0 (by simpa using h1) (by simpa using h2)
        subst heq
        simp [lookupQ]

theorem lookupQ_mapAdd_other : ∀ (m : List (List Char × ℚ)) (k k' : List Char) (v : ℚ),
    k' ≠ k → lookupQ k' (mapAdd m k v) = lookupQ k' m := by
  intro m
  induction m with
  | nil => intro k k' v hne; simp [mapAdd, lookupQ, hne]
  | cons kv rest ih =>
    intro k k' v hne
    obtain ⟨k0, v0⟩ := kv
    simp only [mapAdd]
    by_cases h1 : strLt k k0 = true
    · rw [if_pos h1]
      simp only [lookupQ]
      rw [if_neg hne]
    · rw [if_neg h1]
      by_cases h2 : strLt k0 k = true
      · rw [if_pos h2]
        simp only [lookupQ]
        by_cases hk0 : k' = k0
        · rw [if_pos hk0, if_pos hk0]
        · rw [if_neg hk0, if_neg hk0]
          exact ih k k' v hne
      · rw [if_neg h2]
        have heq : k = k0 := strLt_eq_of_not_lt k k0 (by simpa using h1) (by simpa using h2)
        subst heq
        simp only [lookupQ]
        rw [if_neg hne, if_neg hne]

theorem lookupQ_some_iff_mem : ∀ m : List (List Char × ℚ),
    m.Pairwise (fun p q => strLt p.1 q.1 = true) →
    ∀ (k : List Char) (v : ℚ), ((k, v) ∈ m ↔ lookupQ k m = some v) := by
  intro m
  induction m with
  | nil => intro _ k v; simp [lookupQ]
  | cons kv rest ih =>
    intro hm k v
    obtain ⟨k0, v0⟩ := kv
    rw [List.pairwise_cons] at hm
    obtain ⟨h0, hrest⟩ := hm
    simp only [lookupQ, List.mem_cons]
    by_cases hk : k = k0
    · subst hk
      rw [if_pos rfl]
      constructor
      · rintro (h | h)
        · rw [Prod.mk.injEq] at h
          rw [h.2]
        · have := h0 (k, v) h
          rw [strLt_irrefl] at this; cases this
      · intro h
        left
        rw [Prod.mk.injEq]
        exact ⟨rfl, (Option.some.inj h).symm⟩
    · rw [if_neg hk]
      constructor
      · rintro (h | h)
        · rw [Prod.mk.injEq] at h
          exact absurd h.1 hk
        · exact (ih hrest k v).mp h
      · intro h
        right
        exact (ih hrest k v).mpr h

theorem totals_fold : ∀ (l : List Expense) (m : List (List Char × ℚ)),
    m.Pairwise (fun p q => strLt p.1 q.1 = true) →
    (l.foldl (fun m e => mapAdd m (to_lower e.category) e.amount) m).Pairwise
        (fun p q => strLt p.1 q.1 = true) ∧
    ∀ k, lookupQ k (l.foldl (fun m e => mapAdd m (to_lower e.category) e.amount) m) =
      if l.any (fun e => to_lower e.category = k) then
        some ((lookupQ k m).getD 0 + spec_category_sum l k)
      else lookupQ k m := by
  intro l
  induction l with
  | nil =>
    intro m hm
    refine ⟨hm, fun k => ?_⟩
    simp [spec_category_sum]
  | cons e r ih =>
    intro m hm
    have hm' := mapAdd_pairwise m (to_lower e.category) e.amount hm
    obtain ⟨hp, hl⟩ := ih (mapAdd m (to_lower e.category) e.amount) hm'
    refine ⟨hp, fun k => ?_⟩
    simp only [List.foldl_cons]
    rw [hl k]
    by_cases hk : to_lower e.category = k
    · subst hk
      rw [lookupQ_mapAdd_self m _ e.amount hm]
      have hsum : spec_category_sum (e :: r) (to_lower e.category) =
          e.amount + spec_category_sum r (to_lower e.category) := by
        simp [spec_category_sum, List.filter_cons]
      have hany : ((e :: r).any fun x => to_lower x.category = to_lower e.category) = true := by
        simp
      rw [hany, if_pos rfl, hsum]
      by_cases hr : (r.any fun x => to_lower x.category = to_lower e.category) = true
      · rw [if_pos hr]
        simp only [Option.getD_some]
        rw [add_assoc]
      · rw [if_neg hr]
        have hz : spec_category_sum r (to_lower e.category) = 0 := by
          unfold spec_category_sum
          rw [List.filter_eq_nil_iff.mpr ?hnil]
          · rfl
          case hnil =>
            intro x hx
            simp only [List.any_eq_true, decide_eq_true_eq, not_exists, not_and] at hr
            simpa using fun hxx => hr x hx hxx
        rw [hz, add_zero]
    · have hne : k ≠ to_lower e.category := fun h => hk h.symm
      rw [lookupQ_mapAdd_other m _ k e.amount hne]
      have hsum : spec_category_sum (e :: r) k = spec_category_sum r k := by
        simp [spec_category_sum, List.filter_cons, hk]
      have hany : ((e :: r).any fun x => to_lower x.category = k) =
          (r.any fun x => to_lower x.category = k) := by
        simp [List.any_cons, hk]
      rw [hsum, hany]

theorem totals_by_category_spec (l : List Expense) :
    (totals_by_category l).Pairwise (fun p q => strLt p.1 q.1 = true) ∧
    ∀ (k : List Char) (v : ℚ), ((k, v) ∈ totals_by_category l ↔
      (l.any fun e => to_lower e.category = k) = true ∧ v = spec_category_sum l k) := by
  have htot : totals_by_category l =
      l.foldl (fun m e => mapAdd m (to_lower e.category) e.amount) [] := rfl
  obtain ⟨hp, hl⟩ := totals_fold l [] List.Pairwise.nil
  rw [htot]
  refine ⟨hp, fun k v => ?_⟩
  rw [lookupQ_some_iff_mem _ hp k v, hl k]
  by_cases ha : (l.any fun e => to_lower e.category = k) = true
  · rw [if_pos ha]
    simp only [lookupQ, Option.getD_none, zero_add, Option.some.injEq, ha, true_and]
    exact eq_comm
  · rw [if_neg ha]
    simp [lookupQ, ha]

end ExpenseTracker

namespace ExpenseTracker

/-! ## Characterizing `parse_date` -/

theorem parse_date_digits (c0 c1 c2 c3 c5 c6 c8 c9 : Char)
    (h0 : c0.isDigit = true) (h1 : c1.isDigit = true) (h2 : c2.isDigit = true)
    (h3 : c3.isDigit = true) (h5 : c5.isDigit = true) (h6 : c6.isDigit = true)
    (h8 : c8.isDigit = true) (h9 : c9.isDigit = true) :
    parse_date [c0, c1, c2, c3, '-', c5, c6, '-', c8, c9] =
      (if valid_date ⟨(digitsToNat [c0, c1, c2, c3] : Int), (digitsToNat [c5, c6] : Int),
          (digitsToNat [c8, c9] : Int)⟩ = true
       then some ⟨(digitsToNat [c0, c1, c2, c3] : Int), (digitsToNat [c5, c6] : Int),
          (digitsToNat [c8, c9] : Int)⟩
       else none) := by
  have hy4 : ∀ x ∈ [c0, c1, c2, c3], x.isDigit = true := by
    intro x hx
    simp only [List.mem_cons, List.not_mem_nil, or_false] at hx
    rcases hx with rfl | rfl | rfl | rfl <;> assumption
  have hm2 : ∀ x ∈ [c5, c6], x.isDigit = true := by
    intro x hx
    simp only [List.mem_cons, List.not_mem_nil, or_false] at hx
    rcases hx with rfl | rfl <;> assumption
  have hd2 : ∀ x ∈ [c8, c9], x.isDigit = true := by
    intro x hx
    simp only [List.mem_cons, List.not_mem_nil, or_false] at hx
    rcases hx with rfl | rfl <;> assumption
  have hs0 : substr [c0, c1, c2, c3, '-', c5, c6, '-', c8, c9] 0 4 = [c0, c1, c2, c3] := rfl
  have hs5 : substr [c0, c1, c2, c3, '-', c5, c6, '-', c8, c9] 5 2 = [c5, c6] := rfl
  have hs8 : substr [c0, c1, c2, c3, '-', c5, c6, '-', c8, c9] 8 2 = [c8, c9] := rfl
  unfold parse_date
  rw [if_pos ⟨rfl, rfl, rfl⟩, hs0, hs5, hs8,
    stoiOpt_all_digits [c0, c1, c2, c3] (by simp) hy4,
    stoiOpt_all_digits [c5, c6] (by simp) hm2,
    stoiOpt_all_digits [c8, c9] (by simp) hd2]

theorem parse_date_some (s : List Char) (dt : Date) (h : parse_date s = some dt) :
    s.length = 10 ∧ s.getD 4 ' ' = '-' ∧ s.getD 7 ' ' = '-' ∧
      valid_date dt = true ∧ 1900 ≤ dt.y := by
  unfold parse_date at h
  by_cases hc : s.length = 10 ∧ s.getD 4 ' ' = '-' ∧ s.getD 7 ' ' = '-'
  · rw [if_pos hc] at h
    cases h1 : stoiOpt (substr s 0 4) with
    | none => rw [h1] at h; cases h
    | some y =>
      cases h2 : stoiOpt (substr s 5 2) with
      | none => rw [h1, h2] at h; cases h
      | some m =>
        cases h3 : stoiOpt (substr s 8 2) with
        | none => rw [h1, h2, h3] at h; cases h
        | some d =>
          rw [h1, h2, h3] at h
          by_cases hv : valid_date ⟨y, m, d⟩ = true
          · rw [show (match some y, some m, some d with
                | some y, some m, some d =>
                    let dt : Date := ⟨y, m, d⟩
                    if valid_date dt = true then some dt else none
                | _, _, _ => none) =
                (if valid_date ⟨y, m, d⟩ = true then some (⟨y, m, d⟩ : Date) else none) from rfl,
              if_pos hv] at h
            obtain rfl : (⟨y, m, d⟩ : Date) = dt := Option.some.inj h
            exact ⟨hc.1, hc.2.1, hc.2.2, hv, (valid_date_bounds _ hv).1⟩
          · rw [show (match some y, some m, some d with
                | some y, some m, some d =>
                    let dt : Date := ⟨y, m, d⟩
                    if valid_date dt = true then some dt else none
                | _, _, _ => none) =
                (if valid_date ⟨y, m, d⟩ = true then some (⟨y, m, d⟩ : Date) else none) from rfl,
              if_neg hv] at h
            cases h
  · rw [if_neg hc] at h; cases h

end ExpenseTracker

namespace ExpenseTracker

/-! ## Claim theorems -/

theorem spec_data_lines_subset (ls : List (List Char)) : ∀ l ∈ spec_data_lines ls, l ∈ ls := by
  intro l hl
  cases ls with
  | nil => cases hl
  | cons f r =>
    simp only [spec_data_lines] at hl
    by_cases hp : headerChars.isPrefixOf f = true
    · rw [if_pos hp] at hl
      exact List.mem_cons_of_mem f hl
    · rw [if_neg hp] at hl
      exact hl

/-- **C1** (amended): for every store whose records carry calendar-valid dates
with year ≤ 9999 (true of every store the program can build, since both entry
paths go through `parse_date`) and whose category/description contain no
newline and no carriage-return character, saving and then loading the same
path succeeds and reproduces the same number of records with identical date,
category and description, the amount equal modulo its floating-point
formatting (`loadedAmount`). Fields may freely contain commas and quotes. -/
theorem c1_save_load_roundtrip (store prev : List Expense)
    (h : ∀ e ∈ store, valid_date e.date = true ∧ e.date.y ≤ 9999 ∧
      '\n' ∉ e.category ∧ '\r' ∉ e.category ∧ '\n' ∉ e.description ∧ '\r' ∉ e.description) :
    (load_csv prev (some (save_csv store))).1 = true ∧
    (load_csv prev (some (save_csv store))).2.length = store.length ∧
    (load_csv prev (some (save_csv store))).2 = store.map reloaded := by
  have hrt := save_load_roundtrip store prev h
  rw [hrt]
  exact ⟨rfl, by simp, rfl⟩

/-- **C1** witness: a record whose category and description contain commas and
quotes round-trips through save/load. -/
theorem c1_witness :
    (∀ e ∈ [(⟨⟨2024, 1, 15⟩, 1, "Food, \"fresh\"".data, "Groceries".data⟩ : Expense)],
      valid_date e.date = true ∧ e.date.y ≤ 9999 ∧
      '\n' ∉ e.category ∧ '\r' ∉ e.category ∧ '\n' ∉ e.description ∧ '\r' ∉ e.description) ∧
    (load_csv [] (some (save_csv [⟨⟨2024, 1, 15⟩, 1, "Food, \"fresh\"".data, "Groceries".data⟩]))).2 =
      [(⟨⟨2024, 1, 15⟩, 1, "Food, \"fresh\"".data, "Groceries".data⟩ : Expense)].map reloaded :=
  ⟨by decide,
   (c1_save_load_roundtrip [⟨⟨2024, 1, 15⟩, 1, "Food, \"fresh\"".data, "Groceries".data⟩] []
      (by decide)).2.2⟩

/-- **C1** counterexample: a description containing a newline does not
round-trip — `save_csv` writes the newline literally inside a quoted field,
but `load_csv` reads with `getline`, which splits the record at that newline;
the loaded store's single record carries description `"x` instead of `x\ny`. -/
theorem c1_counterexample :
    ((load_csv [] (some (save_csv [⟨⟨2024, 1, 1⟩, 0, "a".data, "x\ny".data⟩]))).2.map
        fun e => e.description) = ["\"x".data] ∧
    ("\"x".data ≠ "x\ny".data) := ⟨by decide, by decide⟩

/-- **C2** (amended): `parse_date` accepts exactly-10-character strings with
hyphens at positions 4 and 7; on an all-digit `YYYY-MM-DD` pattern it succeeds
iff the read components form a calendar-valid date (year ≥ 1900, handled by
`valid_date`); conversely any success implies that shape and calendar
validity. Components need not be all digits, however: `std::stoi` skips
leading whitespace, accepts a sign and ignores trailing non-digits. -/
theorem c2_parse_date_characterization :
    (∀ c0 c1 c2 c3 c5 c6 c8 c9 : Char,
      c0.isDigit = true → c1.isDigit = true → c2.isDigit = true → c3.isDigit = true →
      c5.isDigit = true → c6.isDigit = true → c8.isDigit = true → c9.isDigit = true →
      parse_date [c0, c1, c2, c3, '-', c5, c6, '-', c8, c9] =
        (if valid_date ⟨(digitsToNat [c0, c1, c2, c3] : Int), (digitsToNat [c5, c6] : Int),
            (digitsToNat [c8, c9] : Int)⟩ = true
         then some ⟨(digitsToNat [c0, c1, c2, c3] : Int), (digitsToNat [c5, c6] : Int),
            (digitsToNat [c8, c9] : Int)⟩
         else none)) ∧
    (∀ (s : List Char) (dt : Date), parse_date s = some dt →
      s.length = 10 ∧ s.getD 4 ' ' = '-' ∧ s.getD 7 ' ' = '-' ∧
        valid_date dt = true ∧ 1900 ≤ dt.y) :=
  ⟨fun c0 c1 c2 c3 c5 c6 c8 c9 h0 h1 h2 h3 h5 h6 h8 h9 =>
      parse_date_digits c0 c1 c2 c3 c5 c6 c8 c9 h0 h1 h2 h3 h5 h6 h8 h9,
   fun s dt h => parse_date_some s dt h⟩

/-- **C2** witness: the leap day 2024-02-29 parses, and 2023-02-29 does not. -/
theorem c2_witness :
    parse_date "2024-02-29".data = some ⟨2024, 2, 29⟩ ∧
    parse_date "2023-02-29".data = none := by
  constructor
  · have h := c2_parse_date_characterization.1 '2' '0' '2' '4' '0' '2' '2' '9'
      (by decide) (by decide) (by decide) (by decide) (by decide) (by decide)
      (by decide) (by decide)
    rw [show "2024-02-29".data = ['2', '0', '2', '4', '-', '0', '2', '-', '2', '9'] from rfl,
      h, if_pos (by decide)]
    decide
  · decide

/-- **C2** counterexample: `"2024-01-1a"` has non-numeric content in its day
component yet parses successfully (as day 1), because `std::stoi` ignores
trailing non-digits; the claim's "only if all components are digits" fails. -/
theorem c2_counterexample :
    parse_date "2024-01-1a".data = some ⟨2024, 1, 1⟩ ∧
    digit_pattern "2024-01-1a".data = false := by decide

/-- **C3** (amended): `add` preserves the non-negative-amount invariant when
the record being added satisfies it (the interactive prompt enforces this);
`load_csv` preserves it only under the extra assumption that every line of
the file that decodes yields a non-negative amount — the loader itself never
rejects a negative amount field. -/
theorem c3_amount_invariant :
    (∀ (store : List Expense) (e : Expense), (∀ x ∈ store, 0 ≤ x.amount) → 0 ≤ e.amount →
      ∀ x ∈ add store e, 0 ≤ x.amount) ∧
    (∀ (prev : List Expense) (content : List Char),
      (∀ l ∈ linesOf content, ∀ e, parse_csv_line l = some e → 0 ≤ e.amount) →
      ∀ x ∈ (load_csv prev (some content)).2, 0 ≤ x.amount) := by
  constructor
  · intro store e hs he x hx
    rcases List.mem_append.mp hx with h | h
    · exact hs x h
    · rw [List.mem_singleton.mp h]; exact he
  · intro prev content h x hx
    have hx2 : x ∈ load_lines (linesOf content) := hx
    rw [load_lines_eq] at hx2
    obtain ⟨l, hl, hparse⟩ := List.mem_filterMap.mp hx2
    exact h l (spec_data_lines_subset (linesOf content) l hl) x hparse

/-- **C3** witness: adding a record with amount `0` to a store satisfying the
invariant keeps every amount non-negative. -/
theorem c3_witness :
    0 ≤ ((⟨⟨2024, 1, 2⟩, 0, "c".data, "d".data⟩ : Expense)).amount :=
  c3_amount_invariant.1 [⟨⟨2024, 1, 1⟩, 0, "a".data, "b".data⟩]
    ⟨⟨2024, 1, 2⟩, 0, "c".data, "d".data⟩ (by simp) (by simp) _
    (List.mem_cons_of_mem _ (List.mem_cons_self _ _))

/-- **C4** (amended): `parse(format(d)) = d` for every calendar-valid date
with 1900 ≤ year ≤ 9999. (Beyond 9999 the formatted year is wider than four
characters and parsing fails on length, see the counterexample.) -/
theorem c4_date_roundtrip (dt : Date) (hv : valid_date dt = true) (hy : dt.y ≤ 9999) :
    parse_date (dateToString dt) = some dt :=
  parse_dateToString dt hv hy

/-- **C4** witness: the round trip at the leap day 2024-02-29. -/
theorem c4_witness : parse_date (dateToString ⟨2024, 2, 29⟩) = some ⟨2024, 2, 29⟩ :=
  c4_date_roundtrip ⟨2024, 2, 29⟩ (by decide) (by decide)

/-- **C4** counterexample: `⟨10000,1,1⟩` is calendar-valid with year ≥ 1900,
but `to_string` renders `10000-01-01` (11 characters, `setw` does not
truncate) and `parse_date` rejects it, refuting the claim for every y ≥ 1900. -/
theorem c4_counterexample :
    valid_date ⟨10000, 1, 1⟩ = true ∧ (1900 : Int) ≤ 10000 ∧
    parse_date (dateToString ⟨10000, 1, 1⟩) = none := by decide

/-- **C5**: the load loop's header test (`rfind(header,0)==0`, a *prefix*
test) is observationally the exact-match rule the spec states: the loaded
records equal those of `spec_load_exact`, which skips the first line iff it
*equals* the header text and otherwise parses it as a data line. The two
agree because any header-prefixed line has `date` as its first field, which
can never parse as a date. -/
theorem c5_header_skip (ls : List (List Char)) : load_lines ls = spec_load_exact ls :=
  load_lines_exact ls

/-- **C6**: `filter_by_date_range` is exactly the in-order filter of the
records in the inclusive range, where the range test is the
year-then-month-then-day lexicographic order `spec_date_le`; the result is a
sublist (same relative order) of the store. -/
theorem c6_filter_by_date_range (dfrom dto : Date) (l : List Expense) :
    filter_by_date_range dfrom dto l =
      l.filter (fun e => date_le dfrom e.date && date_le e.date dto) ∧
    (∀ e, e ∈ filter_by_date_range dfrom dto l ↔
      e ∈ l ∧ spec_date_le dfrom e.date ∧ spec_date_le e.date dto) ∧
    (filter_by_date_range dfrom dto l).Sublist l := by
  refine ⟨filter_by_date_range_eq dfrom dto l, fun e => ?_, ?_⟩
  · rw [filter_by_date_range_eq, List.mem_filter]
    constructor
    · rintro ⟨h1, h2⟩
      rw [Bool.and_eq_true] at h2
      exact ⟨h1, (date_le_iff _ _).mp h2.1, (date_le_iff _ _).mp h2.2⟩
    · rintro ⟨h1, h2, h3⟩
      exact ⟨h1, by
        rw [Bool.and_eq_true]
        exact ⟨(date_le_iff _ _).mpr h2, (date_le_iff _ _).mpr h3⟩⟩
  · rw [filter_by_date_range_eq]
    exact List.filter_sublist _

/-- **C7**: decoding inverts encoding for every field — in fact for all
strings, including already-quoted ("ambiguous") ones, so in particular for
every string that is not itself ambiguously quoted. -/
theorem c7_field_roundtrip (s : List Char) : csv_unescape (csv_escape s) = s :=
  csv_unescape_escape s

/-- **C8**: `totals_by_category` produces entries strictly ascending by
(lowercased) category key, and `(k, v)` is an entry iff some record's
category lowercases to `k` and `v` is the sum of the amounts of exactly
those records. -/
theorem c8_totals_by_category (l : List Expense) :
    (totals_by_category l).Pairwise (fun p q => strLt p.1 q.1 = true) ∧
    ∀ (k : List Char) (v : ℚ), ((k, v) ∈ totals_by_category l ↔
      (l.any fun e => to_lower e.category = k) = true ∧ v = spec_category_sum l k) :=
  totals_by_category_spec l

/-- **C9**: loading an openable file always succeeds, and the store becomes
exactly the records of the data lines that decode, in file order; lines that
fail to decode are skipped without affecting success. -/
theorem c9_lenient_load (prev : List Expense) (content : List Char) :
    (load_csv prev (some content)).1 = true ∧
    (load_csv prev (some content)).2 =
      (spec_data_lines (linesOf content)).filterMap parse_csv_line := by
  refine ⟨rfl, ?_⟩
  show load_lines (linesOf content) = _
  exact load_lines_eq _

/-- **C10**: when load fails (the file cannot be opened), the prior store is
untouched — the clear happens only after a successful open. -/
theorem c10_load_failure_atomic (store : List Expense) (file : Option (List Char))
    (h : (load_csv store file).1 = false) : (load_csv store file).2 = store := by
  cases file with
  | none => rfl
  | some content => exact absurd h (by simp [load_csv])

/-- **C10** witness: a failed load over a one-record store returns failure
and leaves the record in place. -/
theorem c10_witness :
    (load_csv [⟨⟨2024, 1, 1⟩, 0, "a".data, "b".data⟩] none).1 = false ∧
    (load_csv [⟨⟨2024, 1, 1⟩, 0, "a".data, "b".data⟩] none).2 =
      [⟨⟨2024, 1, 1⟩, 0, "a".data, "b".data⟩] :=
  ⟨rfl, c10_load_failure_atomic _ none rfl⟩

end ExpenseTracker

namespace ExpenseTracker

/-- **C3** counterexample: loading the line `2024-01-01,-5,a,b` puts a record
with amount `-5` into the store — the loader accepts negative amounts, so the
claimed invariant is not preserved by load. -/
theorem c3_counterexample :
    ((load_csv [] (some "2024-01-01,-5,a,b".data)).2.map fun e => e.amount) = [(-5 : ℚ)] ∧
    ∃ e ∈ (load_csv [] (some "2024-01-01,-5,a,b".data)).2, e.amount < 0 := by
  have hmap : ((load_csv [] (some "2024-01-01,-5,a,b".data)).2.map fun e => e.amount) =
      [(stod "-5".data).getD 0] := rfl
  have hstod : stod "-5".data =
      some (-((digitsToNat ['5'] : ℚ) +
          (digitsToNat ([] : List Char) : ℚ) / (10 : ℚ) ^ ([] : List Char).length) *
        (10 : ℚ) ^ (0 : Int)) := rfl
  have hval : (stod "-5".data).getD 0 = (-5 : ℚ) := by
    rw [hstod, Option.getD_some, show digitsToNat ['5'] = 5 from by decide,
      show digitsToNat ([] : List Char) = 0 from rfl]
    norm_num
  have hmap2 : ((load_csv [] (some "2024-01-01,-5,a,b".data)).2.map fun e => e.amount) =
      [(-5 : ℚ)] := by rw [hmap, hval]
  refine ⟨hmap2, ?_⟩
  cases hL : (load_csv [] (some "2024-01-01,-5,a,b".data)).2 with
  | nil => rw [hL] at hmap2; cases hmap2
  | cons a t =>
    rw [hL] at hmap2
    simp only [List.map_cons, List.cons.injEq] at hmap2
    refine ⟨a, List.mem_cons_self a t, ?_⟩
    rw [hmap2.1]
    norm_num

end ExpenseTracker
